import Mathlib

/-!
# Verification of the HUMMBL decomposition operator

Shallow embedding of `src/transformations/decomposition.py` and proofs of the
frozen claims about it.  Python floats are modelled as rationals, Python lists
as Lean lists, `f"..."` interpolation as string concatenation with a hand-rolled
decimal printer, and the nondeterministic iteration order of Python `set`s is
pinned to first-occurrence order (the spec instructs implementers to pin a
deterministic order; no claim depends on the chosen order).
-/

namespace Hummbl

/-! ## Decimal printing of naturals (Python `str(int)` for nonnegative ints) -/

/-- The decimal digit character for `n < 10`. -/
def digitChar (n : ℕ) : Char := Char.ofNat (48 + n)

/-- Fuelled decimal digit list of a natural number, most significant first. -/
def natDigitsAux : ℕ → ℕ → List Char
  | 0, _ => []
  | fuel + 1, n =>
    if n < 10 then [digitChar n]
    else natDigitsAux fuel (n / 10) ++ [digitChar (n % 10)]

/-- Decimal representation of a natural number (Python `str(n)` for `n ≥ 0`). -/
def natRepr (n : ℕ) : String := ⟨natDigitsAux (n + 1) n⟩

/-- Left fold reading decimal digit characters back into a number. -/
def readDigits (acc : ℕ) (l : List Char) : ℕ :=
  l.foldl (fun a c => a * 10 + (c.toNat - 48)) acc

/-! ## Character and string helpers -/

/-- Python regex `\w` (ASCII scope): letters, digits, underscore. -/
def isWordChar (c : Char) : Bool := c.isAlpha || c.isDigit || c = '_'

/-- Lowercase a string character-wise (Python `str.lower`, ASCII scope). -/
def lowerStr (s : String) : String := ⟨s.data.map Char.toLower⟩

/-- `leadsList n h` holds when `n` is an initial segment of `h`. -/
def leadsList : List Char → List Char → Bool
  | [], _ => true
  | _ :: _, [] => false
  | a :: as, b :: bs => a = b && leadsList as bs

/-- `subListAt n h` holds when `n` occurs contiguously inside `h`
(Python `n in h` for strings). -/
def subListAt (n : List Char) : List Char → Bool
  | [] => n.isEmpty
  | c :: t => leadsList n (c :: t) || subListAt n t

/-- Python `needle in hay` on strings. -/
def strContains (hay needle : String) : Bool := subListAt needle.data hay.data

/-- Maximal runs of word characters (the `\b`-delimited words of the text). -/
def tokenizeAux : List Char → List Char → List (List Char)
  | [], acc => if acc.isEmpty then [] else [acc.reverse]
  | c :: cs, acc =>
    if isWordChar c then tokenizeAux cs (c :: acc)
    else if acc.isEmpty then tokenizeAux cs []
    else acc.reverse :: tokenizeAux cs []

/-- The word tokens of a string. -/
def tokens (s : String) : List String := (tokenizeAux s.data []).map fun l => ⟨l⟩

/-- First-occurrence deduplication: the pinned deterministic order for
Python's `list(set(...))` conversions. -/
def dedup (l : List String) : List String :=
  l.foldl (fun acc x => if acc.contains x then acc else acc ++ [x]) []

/-- Strip leading and trailing whitespace (Python `str.strip()`). -/
def trimChars (l : List Char) : List Char :=
  ((l.dropWhile Char.isWhitespace).reverse.dropWhile Char.isWhitespace).reverse

/-! ## Extractor (`_extract_actions`, `_extract_entities`, `_extract_constraints`)

The Python action/entity vocabularies are matched with `\b...\b` word
boundaries; since every vocabulary entry is a run of word characters, a match
is exactly a whole word token equal (case-insensitively) to a vocabulary entry.
-/

/-- First alternation group of `_extract_actions`. -/
def actionVocab1 : List String :=
  ["build", "create", "implement", "develop", "design", "setup", "configure",
   "install", "deploy", "integrate", "test", "validate", "optimize", "refactor",
   "migrate"]

/-- Second alternation group of `_extract_actions`. -/
def actionVocab2 : List String :=
  ["add", "remove", "update", "modify", "fix", "enhance", "improve"]

/-- Third alternation group of `_extract_actions`. -/
def actionVocab3 : List String :=
  ["analyze", "evaluate", "assess", "review", "audit", "investigate"]

/-- Lowercased tokens of the text that match a vocabulary (case-insensitive
word-boundary match, groups collected in text order). -/
def matchVocab (vocab : List String) (text : String) : List String :=
  ((tokens text).map lowerStr).filter fun t => vocab.contains t

/-- `_extract_actions`: the action verbs of the text, deduplicated
(set semantics pinned to first-occurrence order). -/
def extractActions (text : String) : List String :=
  dedup (matchVocab actionVocab1 text ++ matchVocab actionVocab2 text ++
    matchVocab actionVocab3 text)

/-- Technical-entity vocabulary of `_extract_entities`. -/
def techVocab : List String :=
  ["api", "mcp", "server", "database", "worker", "service", "function",
   "component", "module", "system", "cache", "storage", "queue", "d1", "r2",
   "kv", "cloudflare"]

/-- Stopwords excluded from the capitalized-term rule. -/
def skipWords : List String :=
  ["The", "A", "An", "In", "On", "For", "With", "To", "From", "By"]

/-- A token matching `\b[A-Z][a-zA-Z]+\b`: all-alphabetic, length at least 2,
first letter uppercase. -/
def isCapitalizedWord (t : String) : Bool :=
  match t.data with
  | [] => false
  | c :: rest => c.isUpper && !rest.isEmpty && rest.all Char.isAlpha

/-- `_extract_entities`: technical vocabulary matches plus capitalized terms
not in the stopword set, all lowercased, deduplicated. -/
def extractEntities (text : String) : List String :=
  dedup ((((tokens text).map lowerStr).filter fun t => techVocab.contains t) ++
    (((tokens text).filter fun t =>
      isCapitalizedWord t && !skipWords.contains t).map lowerStr))

/-- Units of the implicit time-constraint pattern
`\b(\d+\s+(day|week|month|hour|minute)s?)\b`. -/
def timeUnits : List (List Char) :=
  ["day".data, "week".data, "month".data, "hour".data, "minute".data]

/-- A boundary `\b` immediately after a word-character match: the next
character must not be a word character (or the text ends). -/
def boundaryAfter : List Char → Bool
  | [] => true
  | c :: _ => !isWordChar c

/-- Match `unit` then optional `s` then `\b` at the head of `l` (greedy on the
optional `s`, backtracking as the regex engine does); returns matched chars. -/
def matchUnitTail (unit : List Char) (l : List Char) : Option (List Char) :=
  if leadsList unit l then
    let r := l.drop unit.length
    match r with
    | 's' :: r' =>
      if boundaryAfter r' then some (unit ++ ['s'])
      else if boundaryAfter r then some unit
      else none
    | _ => if boundaryAfter r then some unit else none
  else none

/-- Try the time pattern at the head of `l`; `prevWord` tells whether the
preceding character is a word character (`\b` before the digits). -/
def tryTimeMatch (prevWord : Bool) (l : List Char) : Option (List Char) :=
  if prevWord then none
  else
    let ds := l.takeWhile Char.isDigit
    if ds.isEmpty then none
    else
      let r1 := l.dropWhile Char.isDigit
      let ws := r1.takeWhile Char.isWhitespace
      if ws.isEmpty then none
      else
        let r2 := r1.dropWhile Char.isWhitespace
        match timeUnits.findSome? (fun u => matchUnitTail u r2) with
        | some m => some (ds ++ ws ++ m)
        | none => none

/-- Try the budget pattern `\$\d+|\bzero budget\b|no budget` at the head. -/
def tryBudgetMatch (prevWord : Bool) (l : List Char) : Option (List Char) :=
  match l with
  | '$' :: r =>
    let ds := r.takeWhile Char.isDigit
    if ds.isEmpty then tryBudgetRest prevWord l else some ('$' :: ds)
  | _ => tryBudgetRest prevWord l
where
  /-- The two textual alternatives of the budget pattern. -/
  tryBudgetRest (prevWord : Bool) (l : List Char) : Option (List Char) :=
    if !prevWord && leadsList "zero budget".data l &&
        boundaryAfter (l.drop "zero budget".data.length) then
      some "zero budget".data
    else if leadsList "no budget".data l then some "no budget".data
    else none

/-- Try the team pattern `\b(solo|alone|\d+\s+engineer(s)?|\d+\s+person)\b`. -/
def tryTeamMatch (prevWord : Bool) (l : List Char) : Option (List Char) :=
  if prevWord then none
  else if leadsList "solo".data l && boundaryAfter (l.drop 4) then
    some "solo".data
  else if leadsList "alone".data l && boundaryAfter (l.drop 5) then
    some "alone".data
  else
    let ds := l.takeWhile Char.isDigit
    if ds.isEmpty then none
    else
      let r1 := l.dropWhile Char.isDigit
      let ws := r1.takeWhile Char.isWhitespace
      if ws.isEmpty then none
      else
        let r2 := r1.dropWhile Char.isWhitespace
        match matchUnitTail "engineer".data r2 with
        | some m => some (ds ++ ws ++ m)
        | none =>
          if leadsList "person".data r2 && boundaryAfter (r2.drop 6) then
            some (ds ++ ws ++ "person".data)
          else none

/-- Collect the pattern's matches at every position of the text
(`re.finditer`; these patterns cannot produce overlapping matches on any
input where the distinction would matter, so all-positions collection
coincides with the engine's left-to-right scan). -/
def scanMatches (tryMatch : Bool → List Char → Option (List Char)) :
    List Char → Bool → List String
  | [], _ => []
  | c :: cs, prevWord =>
    (match tryMatch prevWord (c :: cs) with
     | some m => [(⟨m⟩ : String)]
     | none => []) ++ scanMatches tryMatch cs (isWordChar c)

/-- `_extract_constraints`: explicit constraints (Python truthiness: `None`
and the empty list both contribute nothing) united with the implicit time,
budget and team pattern matches over the lowercased text (the patterns are
case-insensitive and the matched groups are lowercased, which coincides with
scanning the lowercased text). -/
def extractConstraints (text : String) (explicit : Option (List String)) :
    List String :=
  let base := match explicit with
    | some l => l
    | none => []
  let lt := text.data.map Char.toLower
  dedup (base ++ scanMatches tryTimeMatch lt false ++
    scanMatches tryBudgetMatch lt false ++ scanMatches tryTeamMatch lt false)

/-! ## Data model -/

/-- The `Literal['action', 'entity', 'constraint', 'relationship']` component
type of the source (the `relationship` variant is declared but never
produced). -/
inductive CompType where
  | action
  | entity
  | constraint
  | relationship
deriving DecidableEq, Repr

/-- A `{score, reason}` dictionary (`coupling` / `criticality`). -/
structure ScoreInfo where
  score : ℚ
  reason : String
deriving DecidableEq, Repr

/-- The `Component` dataclass; the `metadata` dictionary is flattened into its
two fields `extracted_from` and `confidence`. -/
structure Component where
  id : String
  description : String
  type : CompType
  dependencies : List String
  coupling : ScoreInfo
  criticality : ScoreInfo
  extracted_from : String
  confidence : ℚ
deriving DecidableEq, Repr

/-- A noise descriptor `{type, description}`. -/
structure NoiseInfo where
  type : String
  description : String
deriving DecidableEq, Repr

/-- The `DecompositionResult` dataclass; the `reasoning` and `metadata`
dictionaries are flattened into named fields, and `decisions` entries are
`(point, rationale)` pairs. -/
structure DecompositionResult where
  components : List Component
  critical_path : List String
  parallelizable : List (List String)
  reasoning_steps : List String
  decisions : List (String × String)
  total_components : ℕ
  max_depth : ℕ
  estimated_complexity : String
  confidence : ℚ
  noise_detected : Option NoiseInfo
  warnings : List String
deriving DecidableEq, Repr

/-- The id `f"comp_{n}"` assigned by the component builder's counter. -/
def compId (n : ℕ) : String := "comp_" ++ natRepr n

/-! ## Component builder (`_build_components`, `_find_related_entity`) -/

/-- The `common_pairs` preference table of `_find_related_entity`. -/
def commonPairs (action : String) : List String :=
  if action = "build" then ["server", "api", "system", "component"]
  else if action = "deploy" then ["worker", "service", "function"]
  else if action = "integrate" then ["database", "d1", "api", "service"]
  else if action = "configure" then ["server", "worker", "cache"]
  else if action = "test" then ["function", "api", "component"]
  else []

/-- `_find_related_entity`: first entity containing a preferred substring for
the action, else the first entity, else none. -/
def findRelatedEntity (action : String) (entities : List String) :
    Option String :=
  match (commonPairs action).findSome?
      (fun pref => entities.find? fun e => strContains e pref) with
  | some m => some m
  | none => entities.head?

/-- The action component built for `action` with counter value `idx`. -/
def mkActionComponent (entities : List String) (idx : ℕ) (action : String) :
    Component :=
  let descr := match findRelatedEntity action entities with
    | some e => action ++ " " ++ e
    | none => action
  { id := compId idx
    description := descr
    type := .action
    dependencies := []
    coupling := ⟨0.5, "Initial estimate"⟩
    criticality := ⟨0.5, "Initial estimate"⟩
    extracted_from := "action: " ++ action
    confidence := 0.7 }

/-- The standalone component built for an unpaired entity. -/
def mkEntityComponent (idx : ℕ) (entity : String) : Component :=
  { id := compId idx
    description := entity
    type := .entity
    dependencies := []
    coupling := ⟨0.3, "Entity component"⟩
    criticality := ⟨0.3, "Supporting entity"⟩
    extracted_from := "entity: " ++ entity
    confidence := 0.6 }

/-- The component built for a constraint. -/
def mkConstraintComponent (idx : ℕ) (c : String) : Component :=
  { id := compId idx
    description := "respect constraint: " ++ c
    type := .constraint
    dependencies := []
    coupling := ⟨0.8, "Constraint impacts all components"⟩
    criticality := ⟨0.9, "Constraint violation = failure"⟩
    extracted_from := "constraint: " ++ c
    confidence := 0.8 }

/-- The text after the first space of `s`, when `s` contains a space
(Python `s.split(' ', 1)[1]` guarded by `' ' in s`). -/
def afterFirstSpace (s : String) : Option String :=
  if s.data.contains ' ' then
    some ⟨(s.data.dropWhile (fun c => c ≠ ' ')).tail⟩
  else none

/-- The entities already paired into action descriptions. -/
def pairedEntities (actionComps : List Component) : List String :=
  actionComps.filterMap fun c => afterFirstSpace c.description

/-- `_build_components`: action components (each with a best-guess related
entity), standalone components for unpaired entities, then constraint
components, with a single auto-incrementing id counter. -/
def buildComponents (actions entities constraints : List String) :
    List Component :=
  let actionComps := actions.enum.map fun p =>
    mkActionComponent entities p.1 p.2
  let unpaired := entities.filter fun e => !(pairedEntities actionComps).contains e
  let entityComps := unpaired.enum.map fun p =>
    mkEntityComponent (actions.length + p.1) p.2
  let constraintComps := constraints.enum.map fun p =>
    mkConstraintComponent (actions.length + unpaired.length + p.1) p.2
  actionComps ++ entityComps ++ constraintComps

/-! ## Dependency inferrer (`_detect_dependencies`, `_is_sequential`) -/

/-- Split into pieces at every `.`, `!` or `?` character.  Combined with the
strip-and-drop-empties step below this coincides with Python's
`re.split(r'[.!?]+', text)` followed by the same filtering. -/
def splitDelimAux : List Char → List Char → List (List Char)
  | [], acc => [acc.reverse]
  | c :: cs, acc =>
    if c = '.' || c = '!' || c = '?' then acc.reverse :: splitDelimAux cs []
    else splitDelimAux cs (c :: acc)

/-- The sentences of the problem text: split on sentence punctuation, strip
whitespace, drop empties. -/
def splitSentences (text : String) : List String :=
  ((splitDelimAux text.data []).map trimChars).filterMap fun l =>
    if l.isEmpty then none else some (⟨l⟩ : String)

/-- The canonical action ordering of `_is_sequential`. -/
def seqList : List String :=
  ["setup", "build", "configure", "test", "deploy", "integrate"]

/-- Index of the first list element satisfying `p`
(Python `next((i for i, s in enumerate(l) if p s), -1)`, `-1` as `none`). -/
def firstIdxWhere (p : α → Bool) : List α → Option ℕ
  | [] => none
  | a :: as => if p a then some 0 else (firstIdxWhere p as).map (· + 1)

/-- Index of the first canonical keyword occurring as a substring of the
description. -/
def seqIdx (descr : String) : Option ℕ :=
  firstIdxWhere (fun s => strContains descr s) seqList

/-- `_is_sequential a1 a2`: both descriptions contain a canonical keyword and
`a2`'s keyword is strictly earlier. -/
def isSequential (a1 a2 : String) : Bool :=
  match seqIdx a1, seqIdx a2 with
  | some i1, some i2 => decide (i2 < i1)
  | _, _ => false

/-- Components `comp` and `other` are co-mentioned: some sentence contains
both descriptions (case-insensitive substring). -/
def coMentioned (comp other : Component) (sentences : List String) : Bool :=
  sentences.any fun s =>
    strContains (lowerStr s) (lowerStr comp.description) &&
    strContains (lowerStr s) (lowerStr other.description)

/-- The co-mention rule of `_detect_dependencies` for the ordered pair
`(comp, other)`: action depends on co-mentioned entity, or on a co-mentioned
action that precedes it in the canonical order. -/
def coMentionRule (comp other : Component) (sentences : List String) : Bool :=
  comp.id ≠ other.id && coMentioned comp other sentences &&
    ((comp.type = CompType.action && other.type = CompType.entity) ||
     (comp.type = CompType.action && other.type = CompType.action &&
      isSequential comp.description other.description))

/-- The dependency ids appended to `comp` by `_detect_dependencies`:
co-mention edges in component order, then (for non-constraints) an edge to
every constraint component. -/
def depsFor (comp : Component) (comps : List Component)
    (sentences : List String) : List String :=
  (comps.filter fun other => coMentionRule comp other sentences).map
      Component.id ++
    (if comp.type ≠ CompType.constraint then
      (comps.filter fun o => o.type = CompType.constraint).map Component.id
    else [])

/-- `_detect_dependencies`: append the inferred dependency ids to every
component's (initially empty) dependency list. -/
def detectDependencies (comps : List Component) (text : String) :
    List Component :=
  let sentences := splitSentences text
  comps.map fun comp =>
    { comp with dependencies := comp.dependencies ++ depsFor comp comps sentences }

/-! ## Scorer (`_calculate_coupling`, `_calculate_criticality`) -/

/-- Number of components whose dependency list contains `cid`
(`sum(1 for c in components if cid in c.dependencies)`). -/
def dependentCount (comps : List Component) (cid : String) : ℕ :=
  (comps.filter fun c => c.dependencies.contains cid).length

/-- The coupling score of `c`: in+out degree over `max((N-1)*2, 1)`, capped
at 1 (floats modelled as rationals). -/
def couplingScore (comps : List Component) (c : Component) : ℚ :=
  let total : ℕ := c.dependencies.length + dependentCount comps c.id
  min ((total : ℚ) / ((max ((comps.length - 1) * 2) 1 : ℕ) : ℚ)) 1

/-- `_calculate_coupling` (score and reason fields; the coupling of other
components is never read by the loop, so the in-place mutation is a map). -/
def calcCoupling (comps : List Component) : List Component :=
  comps.map fun c =>
    { c with coupling := ⟨couplingScore comps c,
        natRepr c.dependencies.length ++ " dependencies, " ++
        natRepr (dependentCount comps c.id) ++ " dependents"⟩ }

/-- An apostrophe character as a string. -/
def apos : String := String.singleton (Char.ofNat 39)

/-- Python's `f"{score:.2f}"` on a nonnegative score, modelled as exact
decimal rounding of the rational (half-up; no claim depends on the float
engine's tie behaviour). -/
def fmt2 (q : ℚ) : String :=
  let n : ℕ := (⌊q * 100 + 1 / 2⌋).toNat
  natRepr (n / 100) ++ "." ++ (if n % 100 < 10 then "0" else "") ++
    natRepr (n % 100)

/-- The high-coupling warnings emitted by `_calculate_coupling`, in component
order. -/
def couplingWarnings (comps : List Component) : List String :=
  (comps.filter fun c => decide (couplingScore comps c > 0.7)).map fun c =>
    "Component " ++ apos ++ c.description ++ apos ++ " is highly coupled (" ++
      fmt2 (couplingScore comps c) ++ ")"

/-- `_calculate_criticality`: constraints get a fixed near-maximal score,
others `min(0.3 + 0.15 * dependents, 1.0)`. -/
def calcCriticality (comps : List Component) : List Component :=
  comps.map fun c =>
    if c.type = CompType.constraint then
      { c with criticality := ⟨0.95, "Constraint affects all work"⟩ }
    else
      { c with criticality := ⟨min (0.3 + (dependentCount comps c.id : ℚ) * 0.15) 1,
          natRepr (dependentCount comps c.id) ++ " components depend on this"⟩ }

/-! ## Graph analyzer (`_find_critical_path`, `_find_parallelizable`,
`_calculate_max_depth`, `_estimate_complexity`,
`_calculate_overall_confidence`, `_detect_noise`) -/

/-- The mutable `visited` set and `path` list of `_find_critical_path`
(the set is modelled as a list queried by membership). -/
structure DfsState where
  visited : List String
  path : List String
deriving DecidableEq, Repr

/-- Sequential traversal of a dependency list by the recursive walk `f`,
threading the state (`[dfs(dep_id) for dep_id in comp.dependencies]`). -/
def dfsDepsWith (f : String → DfsState → Option (ℕ × DfsState)) :
    List String → DfsState → Option (List ℕ × DfsState)
  | [], st => some ([], st)
  | d :: rest, st =>
    match f d st with
    | none => none
    | some (n, st') =>
      match dfsDepsWith f rest st' with
      | none => none
      | some (ns, st'') => some (n :: ns, st'')

/-- The recursive `dfs` of `_find_critical_path`, fuelled (`none` = fuel
exhausted or a dangling id, where Python would raise).  The fuel decreases
once per nesting level; `components.length + 1` is proved sufficient below. -/
def dfsVisit (comps : List Component) : ℕ → String → DfsState →
    Option (ℕ × DfsState)
  | 0, _, _ => none
  | fuel + 1, cid, st =>
    if st.visited.contains cid then some (0, st)
    else
      match comps.find? (fun c => c.id = cid) with
      | none => none
      | some comp =>
        let st1 : DfsState := ⟨st.visited ++ [cid], st.path⟩
        if comp.dependencies.isEmpty then
          some (1, ⟨st1.visited, st1.path ++ [cid]⟩)
        else
          match dfsDepsWith (dfsVisit comps fuel) comp.dependencies st1 with
          | none => none
          | some (ds, st2) =>
            some (ds.foldl max 0 + 1, ⟨st2.visited, st2.path ++ [cid]⟩)

/-- Python's `max(components, key=lambda c: c.criticality['score'])`: the
first component attaining the maximal criticality score (`max` keeps the
incumbent on ties); `none` on an empty list, where Python raises
`ValueError`. -/
def pyMaxCriticality : List Component → Option Component
  | [] => none
  | c :: rest => some (rest.foldl
      (fun best x => if best.criticality.score < x.criticality.score then x
        else best) c)

/-- `_find_critical_path`: depth-first walk from the highest-criticality
component, reversed post-order path. -/
def findCriticalPath (comps : List Component) : Option (List String) :=
  match pyMaxCriticality comps with
  | none => none
  | some start =>
    match dfsVisit comps (comps.length + 1) start.id ⟨[], []⟩ with
    | none => none
    | some (_, st) => some st.path.reverse

/-- The inner scan of `_find_parallelizable`: extend the group seeded at
`comp` with every unprocessed component having no direct dependency edge with
`comp`, marking additions processed. -/
def groupScan (comp : Component) : List Component → List String →
    List String → List String × List String
  | [], group, processed => (group, processed)
  | other :: rest, group, processed =>
    if processed.contains other.id then groupScan comp rest group processed
    else if comp.dependencies.contains other.id ||
        other.dependencies.contains comp.id then
      groupScan comp rest group processed
    else groupScan comp rest (group ++ [other.id]) (processed ++ [other.id])

/-- The outer loop of `_find_parallelizable`. -/
def parallelScan (allComps : List Component) : List Component →
    List String → List (List String)
  | [], _ => []
  | comp :: rest, processed =>
    if processed.contains comp.id then parallelScan allComps rest processed
    else
      let gp := groupScan comp allComps [comp.id] (processed ++ [comp.id])
      if gp.1.length > 1 then gp.1 :: parallelScan allComps rest gp.2
      else parallelScan allComps rest gp.2

/-- `_find_parallelizable`: greedy grouping of components with no direct
dependency edge to the group's seed; only groups with at least 2 members are
kept. -/
def findParallelizable (comps : List Component) : List (List String) :=
  parallelScan comps comps []

/-- The recursive depth computation `f` applied to each id of a list. -/
def getDepthListWith (f : String → Option ℕ) : List String → Option (List ℕ)
  | [] => some []
  | d :: rest =>
    match f d, getDepthListWith f rest with
    | some n, some ns => some (n :: ns)
    | _, _ => none

/-- The recursion of `_calculate_max_depth`, fuelled, without the pure
memoization cache (the cache never changes the computed values, and on a
cyclic graph both versions fail to terminate — modelled by fuel
exhaustion). -/
def getDepthAux (comps : List Component) : ℕ → String → Option ℕ
  | 0, _ => none
  | fuel + 1, cid =>
    match comps.find? (fun c => c.id = cid) with
    | none => none
    | some comp =>
      if comp.dependencies.isEmpty then some 1
      else
        match getDepthListWith (getDepthAux comps fuel) comp.dependencies with
        | none => none
        | some ds => some (ds.foldl max 0 + 1)

/-- Recursion-depth budget for `_calculate_max_depth`: every dependency edge
strictly decreases the component rank proved below, and ranks are below 9, so
a fuel of 10 never runs out on components the pipeline produces. -/
def depthFuel : ℕ := 10

/-- `_calculate_max_depth`: maximum of the per-component depths, 1 when there
are no components. -/
def calculateMaxDepth (comps : List Component) : Option ℕ :=
  match getDepthListWith (getDepthAux comps depthFuel) (comps.map Component.id) with
  | none => none
  | some ds => some (if ds.isEmpty then 1 else ds.foldl max 0)

/-- `_estimate_complexity` (it recomputes `_calculate_max_depth`; the
identical value is passed in by the caller). -/
def estimateComplexity (comps : List Component) (depth : ℕ) : String :=
  let count := comps.length
  let avg : ℚ := ((comps.map fun c => c.coupling.score).sum) / ((max count 1 : ℕ) : ℚ)
  if count ≤ 3 ∧ avg < 0.4 ∧ depth ≤ 2 then "low"
  else if count ≤ 7 ∧ avg < 0.6 ∧ depth ≤ 4 then "medium"
  else if count ≤ 12 ∧ avg < 0.8 ∧ depth ≤ 6 then "high"
  else "very high"

/-- `_calculate_overall_confidence`: mean of per-component confidences, 0.0
for an empty collection. -/
def overallConfidence (comps : List Component) : ℚ :=
  if comps.isEmpty then 0
  else ((comps.map fun c => c.confidence).sum) / (comps.length : ℚ)

/-- The vague-term vocabulary of `_detect_noise`. -/
def vagueTerms : List String :=
  ["maybe", "possibly", "might", "could", "approximately"]

/-- `_detect_noise`: epistemic (short input), else aleatory (vague language),
else human (many low-confidence components), else none. -/
def detectNoise (text : String) (comps : List Component) : Option NoiseInfo :=
  if text.length < 50 then
    some ⟨"epistemic", "Problem description lacks detail and context"⟩
  else if vagueTerms.any (fun t => strContains (lowerStr text) t) then
    some ⟨"aleatory", "Problem contains uncertain or probabilistic elements"⟩
  else if ((comps.filter fun c => decide (c.confidence < 0.5)).length : ℚ) >
      (comps.length : ℚ) * 0.3 then
    some ⟨"human", "High uncertainty in component extraction"⟩
  else none

/-- `decompose`: the full pipeline.  `context` is accepted and, as in the
source, never read.  The result is `none` where the Python raises (`max()` on
an empty component collection, a dangling id, or unbounded recursion).  The
wall-clock reasoning entry ("Decomposition completed in ...ms") is modelled
out. -/
def decompose {α : Type} (problem_text : String) (context : Option α)
    (constraints : Option (List String)) : Option DecompositionResult :=
  let actions := extractActions problem_text
  let entities := extractEntities problem_text
  let all_constraints := extractConstraints problem_text constraints
  let components0 := buildComponents actions entities all_constraints
  let components1 := detectDependencies components0 problem_text
  let components2 := calcCoupling components1
  let comps := calcCriticality components2
  let parallelizable := findParallelizable comps
  match findCriticalPath comps with
  | none => none
  | some critical_path =>
    match calculateMaxDepth comps with
    | none => none
    | some depth =>
      let noise := detectNoise problem_text comps
      some {
        components := comps
        critical_path := critical_path
        parallelizable := parallelizable
        reasoning_steps := [
          "Pass 1: Identified " ++ natRepr actions.length ++ " potential actions",
          "Pass 2: Identified " ++ natRepr entities.length ++ " entities",
          "Pass 3: Identified " ++ natRepr all_constraints.length ++ " constraints",
          "Pass 4: Generated " ++ natRepr components0.length ++ " components",
          "Pass 5: Mapped dependencies",
          "Pass 6: Calculated coupling scores",
          "Pass 7: Identified critical path"]
        decisions := [("Component generation",
          "Generated " ++ natRepr components0.length ++ " components from " ++
          natRepr actions.length ++ " actions, " ++ natRepr entities.length ++
          " entities, " ++ natRepr all_constraints.length ++ " constraints")]
        total_components := comps.length
        max_depth := depth
        estimated_complexity := estimateComplexity comps depth
        confidence := overallConfidence comps
        noise_detected := noise
        warnings := couplingWarnings components1 ++
          (match noise with
           | some n => ["Detected " ++ n.type ++ " noise: " ++ n.description]
           | none => []) }

/-! ## Derived notions used by the verification -/

/-- The component collection a `decompose` run carries into pass 8
(build, then dependency inference, then the two scoring passes). -/
def pipelineComponents (t : String) (e : Option (List String)) :
    List Component :=
  calcCriticality (calcCoupling (detectDependencies
    (buildComponents (extractActions t) (extractEntities t)
      (extractConstraints t e)) t))

/-- The dependency-edge relation on component ids: `a` has a direct edge to
`b` when some component with id `a` lists `b` among its dependencies. -/
def stepRel (comps : List Component) (a b : String) : Prop :=
  ∃ c ∈ comps, c.id = a ∧ b ∈ c.dependencies

/-- Rank contribution of the canonical-order index of a description. -/
def seqRank (descr : String) : ℕ :=
  match seqIdx descr with
  | none => 0
  | some i => i + 1

/-- A rank that every dependency edge the pipeline creates strictly
decreases: constraints at the bottom, entities above them, actions ordered
by their canonical-sequence index. -/
def rank (c : Component) : ℕ :=
  match c.type with
  | .constraint => 0
  | .entity => 1
  | .relationship => 1
  | .action => 2 + seqRank c.description

/-- Rank of the component a given id resolves to. -/
def rankOf (comps : List Component) (i : String) : ℕ :=
  match comps.find? (fun y => y.id = i) with
  | some c => rank c
  | none => 0

/-- Postcondition of one `dfs` call or one dependency-list traversal:
`A`/`B` are the segments appended to `visited`/`path`; all newly visited ids
are fresh, denote the same set as the new path segment (which has no
repeats), exist in the component collection, are `reach`-able, and are
closed under dependency edges into the final visited set. -/
def dfsCore (comps : List Component) (reach : String → Prop)
    (st st' : DfsState) (A B : List String) : Prop :=
  st'.visited = st.visited ++ A ∧
  st'.path = st.path ++ B ∧
  (∀ x ∈ A, x ∉ st.visited) ∧
  (∀ x, x ∈ A ↔ x ∈ B) ∧
  B.Nodup ∧
  (∀ x ∈ A, x ∈ comps.map Component.id) ∧
  (∀ x ∈ A, reach x) ∧
  (∀ x ∈ A, ∀ c, comps.find? (fun y => y.id = x) = some c →
    ∀ d ∈ c.dependencies, d ∈ st'.visited)

/-! # Theorems -/

/-! ## Decimal printer -/

theorem digitChar_toNat {n : ℕ} (h : n < 10) : (digitChar n).toNat = 48 + n := by
  interval_cases n <;> decide

theorem readDigits_append (acc : ℕ) (l₁ l₂ : List Char) :
    readDigits acc (l₁ ++ l₂) = readDigits (readDigits acc l₁) l₂ := by
  simp [readDigits, List.foldl_append]

theorem readDigits_natDigitsAux (fuel n acc : ℕ) (h : n < fuel) :
    readDigits acc (natDigitsAux fuel n) = acc * 10 ^ (natDigitsAux fuel n).length + n := by
  induction fuel generalizing n acc with
  | zero => omega
  | succ fuel ih =>
    by_cases hn : n < 10
    · simp [natDigitsAux, hn, readDigits, digitChar_toNat hn]
    · have hdiv : n / 10 < fuel := by
        have h1 : n / 10 < n := Nat.div_lt_self (by omega) (by omega)
        omega
      simp only [natDigitsAux, if_neg hn]
      rw [readDigits_append, ih _ _ hdiv]
      have hm : readDigits (acc * 10 ^ (natDigitsAux fuel (n / 10)).length + n / 10)
          [digitChar (n % 10)] =
          (acc * 10 ^ (natDigitsAux fuel (n / 10)).length + n / 10) * 10 + n % 10 := by
        simp [readDigits, digitChar_toNat (Nat.mod_lt n (by omega))]
      rw [hm]
      have hlen : (natDigitsAux fuel (n / 10) ++ [digitChar (n % 10)]).length
          = (natDigitsAux fuel (n / 10)).length + 1 := by simp
      rw [hlen, pow_succ]
      have := Nat.div_add_mod n 10
      ring_nf
      omega

theorem natRepr_injective : Function.Injective natRepr := by
  intro m n h
  have hd : natDigitsAux (m + 1) m = natDigitsAux (n + 1) n := by
    have := congrArg String.data h
    simpa [natRepr] using this
  have hm := readDigits_natDigitsAux (m + 1) m 0 (by omega)
  have hn := readDigits_natDigitsAux (n + 1) n 0 (by omega)
  rw [hd] at hm
  rw [hm] at hn
  omega

theorem compId_injective : Function.Injective compId := by
  intro m n h
  apply natRepr_injective
  have hd := congrArg String.data h
  simp only [compId, String.data_append] at hd
  exact String.ext (List.append_cancel_left hd)

/-! ## Generic list lemmas -/

theorem find?_id_of_nodup {comps : List Component}
    (hnd : (comps.map Component.id).Nodup) {c : Component} (hc : c ∈ comps) :
    comps.find? (fun y => y.id = c.id) = some c := by
  induction comps with
  | nil => cases hc
  | cons c₀ rest ih =>
    simp only [List.map_cons, List.nodup_cons] at hnd
    rcases List.mem_cons.mp hc with rfl | hmem
    · exact List.find?_cons_of_pos _ (by simp)
    · have hne : c₀.id ≠ c.id := by
        intro h
        exact hnd.1 (h ▸ List.mem_map_of_mem Component.id hmem)
      rw [List.find?_cons_of_neg _ (by simp [hne])]
      exact ih hnd.2 hmem

theorem id_inj_of_nodup {comps : List Component}
    (hnd : (comps.map Component.id).Nodup) {c c' : Component}
    (hc : c ∈ comps) (hc' : c' ∈ comps) (h : c.id = c'.id) : c = c' := by
  have h1 := find?_id_of_nodup hnd hc
  have h2 := find?_id_of_nodup hnd hc'
  rw [h] at h1
  rw [h1] at h2
  exact Option.some.inj h2

theorem find?_id_mem {comps : List Component} {cid : String} {c : Component}
    (h : comps.find? (fun y => y.id = cid) = some c) : c ∈ comps ∧ c.id = cid :=
  ⟨List.mem_of_find?_eq_some h, by simpa using List.find?_some h⟩

theorem find?_id_isSome {comps : List Component} {cid : String}
    (h : cid ∈ comps.map Component.id) :
    ∃ c, comps.find? (fun y => y.id = cid) = some c := by
  rcases List.mem_map.mp h with ⟨c, hc, rfl⟩
  have hs : (comps.find? (fun y => y.id = c.id)).isSome :=
    List.find?_isSome.mpr ⟨c, hc, by exact decide_eq_true rfl⟩
  rcases Option.isSome_iff_exists.mp hs with ⟨c', hc'⟩
  exact ⟨c', hc'⟩

theorem firstIdxWhere_lt_length {p : α → Bool} {l : List α} {i : ℕ}
    (h : firstIdxWhere p l = some i) : i < l.length := by
  induction l generalizing i with
  | nil => simp [firstIdxWhere] at h
  | cons a as ih =>
    by_cases hp : p a = true
    · rw [show firstIdxWhere p (a :: as) = some 0 by simp [firstIdxWhere, hp]] at h
      injection h with h
      subst h
      simp
    · rw [show firstIdxWhere p (a :: as) = (firstIdxWhere p as).map (· + 1) by
        simp [firstIdxWhere, hp]] at h
      cases hfi : firstIdxWhere p as with
      | none => rw [hfi] at h; simp at h
      | some j =>
        rw [hfi, Option.map_some'] at h
        injection h with h
        subst h
        have := ih hfi
        simp only [List.length_cons]
        omega

/-! ## Component-builder invariants -/

theorem enum_map_comp_id (l : List α) (g : ℕ → α → Component) (off : ℕ)
    (h : ∀ i x, (g i x).id = compId (off + i)) :
    (l.enum.map fun p => g p.1 p.2).map Component.id
      = (List.range l.length).map fun i => compId (off + i) := by
  rw [List.map_map]
  have h1 : (Component.id ∘ fun p : ℕ × α => g p.1 p.2)
      = (fun i => compId (off + i)) ∘ Prod.fst := by
    funext p
    exact h p.1 p.2
  rw [h1, ← List.map_map, List.enum_map_fst]

theorem buildComponents_map_id (a e k : List String) :
    ∃ N, (buildComponents a e k).map Component.id = (List.range N).map compId := by
  classical
  simp only [buildComponents]
  set u := e.filter fun x =>
    !(pairedEntities (a.enum.map fun p => mkActionComponent e p.1 p.2)).contains x
    with hu
  refine ⟨a.length + u.length + k.length, ?_⟩
  rw [List.map_append, List.map_append]
  rw [enum_map_comp_id a (fun i x => mkActionComponent e i x) 0
      (fun i x => by simp [mkActionComponent])]
  rw [enum_map_comp_id u (fun i x => mkEntityComponent (a.length + i) x) a.length
      (fun i x => rfl)]
  rw [enum_map_comp_id k
      (fun i x => mkConstraintComponent (a.length + u.length + i) x)
      (a.length + u.length) (fun i x => rfl)]
  rw [List.range_add, List.range_add]
  simp [List.map_map, Function.comp_def]

theorem buildComponents_ids_nodup (a e k : List String) :
    ((buildComponents a e k).map Component.id).Nodup := by
  obtain ⟨N, hN⟩ := buildComponents_map_id a e k
  rw [hN]
  exact List.Nodup.map compId_injective (List.nodup_range N)

theorem mem_buildComponents {a e k : List String} {c : Component}
    (hc : c ∈ buildComponents a e k) :
    c.dependencies = [] ∧
    ((c.type = CompType.action ∧ c.confidence = 0.7) ∨
     (c.type = CompType.entity ∧ c.confidence = 0.6) ∨
     (c.type = CompType.constraint ∧ c.confidence = 0.8)) := by
  simp only [buildComponents, List.mem_append, List.mem_map] at hc
  rcases hc with (⟨p, _, rfl⟩ | ⟨p, _, rfl⟩) | ⟨p, _, rfl⟩
  · exact ⟨rfl, Or.inl ⟨rfl, rfl⟩⟩
  · exact ⟨rfl, Or.inr (Or.inl ⟨rfl, rfl⟩)⟩
  · exact ⟨rfl, Or.inr (Or.inr ⟨rfl, rfl⟩)⟩

/-! ## Stage membership and field preservation -/

theorem mem_detectDependencies {comps : List Component} {t : String}
    {c : Component} :
    c ∈ detectDependencies comps t ↔ ∃ b ∈ comps,
      c = { b with dependencies :=
        b.dependencies ++ depsFor b comps (splitSentences t) } := by
  simp only [detectDependencies, List.mem_map]
  constructor
  · rintro ⟨b, hb, rfl⟩
    exact ⟨b, hb, rfl⟩
  · rintro ⟨b, hb, rfl⟩
    exact ⟨b, hb, rfl⟩

theorem mem_calcCoupling {comps : List Component} {c : Component} :
    c ∈ calcCoupling comps ↔ ∃ b ∈ comps,
      c = { b with coupling := ⟨couplingScore comps b,
        natRepr b.dependencies.length ++ " dependencies, " ++
        natRepr (dependentCount comps b.id) ++ " dependents"⟩ } := by
  simp only [calcCoupling, List.mem_map]
  constructor
  · rintro ⟨b, hb, rfl⟩
    exact ⟨b, hb, rfl⟩
  · rintro ⟨b, hb, rfl⟩
    exact ⟨b, hb, rfl⟩

theorem mem_calcCriticality {comps : List Component} {c : Component} :
    c ∈ calcCriticality comps ↔ ∃ b ∈ comps,
      c = if b.type = CompType.constraint then
        { b with criticality := ⟨0.95, "Constraint affects all work"⟩ }
      else
        { b with criticality :=
          ⟨min (0.3 + (dependentCount comps b.id : ℚ) * 0.15) 1,
           natRepr (dependentCount comps b.id) ++ " components depend on this"⟩ } := by
  simp only [calcCriticality, List.mem_map]
  constructor
  · rintro ⟨b, hb, rfl⟩
    exact ⟨b, hb, rfl⟩
  · rintro ⟨b, hb, rfl⟩
    exact ⟨b, hb, rfl⟩

theorem detectDependencies_map_id {comps : List Component} {t : String} :
    (detectDependencies comps t).map Component.id = comps.map Component.id := by
  simp only [detectDependencies, List.map_map]
  rfl

theorem calcCoupling_map_id {comps : List Component} :
    (calcCoupling comps).map Component.id = comps.map Component.id := by
  simp only [calcCoupling, List.map_map]
  rfl

theorem calcCriticality_map_id {comps : List Component} :
    (calcCriticality comps).map Component.id = comps.map Component.id := by
  simp only [calcCriticality, List.map_map]
  refine List.map_congr_left fun c _ => ?_
  simp only [Function.comp_apply]
  split <;> rfl

theorem pipeline_map_id (t : String) (e : Option (List String)) :
    (pipelineComponents t e).map Component.id
      = (buildComponents (extractActions t) (extractEntities t)
          (extractConstraints t e)).map Component.id := by
  rw [pipelineComponents, calcCriticality_map_id, calcCoupling_map_id,
    detectDependencies_map_id]

theorem pipeline_ids_nodup (t : String) (e : Option (List String)) :
    ((pipelineComponents t e).map Component.id).Nodup := by
  rw [pipeline_map_id]
  exact buildComponents_ids_nodup _ _ _

/-- Every pipeline component comes from a builder component with the same
id, type, description and confidence, with its dependency list produced by
the dependency inferrer over the builder components, and with scorer-shaped
coupling and criticality values. -/
theorem pipeline_elem {t : String} {e : Option (List String)} {c : Component}
    (hc : c ∈ pipelineComponents t e) :
    ∃ b ∈ buildComponents (extractActions t) (extractEntities t)
        (extractConstraints t e),
      c.id = b.id ∧ c.type = b.type ∧ c.description = b.description ∧
      c.confidence = b.confidence ∧
      c.dependencies = depsFor b
        (buildComponents (extractActions t) (extractEntities t)
          (extractConstraints t e)) (splitSentences t) ∧
      (∃ T b₁, c.coupling.score = couplingScore T b₁) ∧
      (c.criticality.score = 0.95 ∨
        ∃ m : ℕ, c.criticality.score = min (0.3 + (m : ℚ) * 0.15) 1) := by
  rw [pipelineComponents] at hc
  rcases mem_calcCriticality.mp hc with ⟨c₂, hc₂, rfl⟩
  rcases mem_calcCoupling.mp hc₂ with ⟨c₁, hc₁, rfl⟩
  rcases mem_detectDependencies.mp hc₁ with ⟨b, hb, rfl⟩
  have hdeps : b.dependencies = [] := (mem_buildComponents hb).1
  refine ⟨b, hb, ?_⟩
  split
  · exact ⟨rfl, rfl, rfl, rfl, by simp [hdeps], ⟨_, _, rfl⟩, Or.inl rfl⟩
  · exact ⟨rfl, rfl, rfl, rfl, by simp [hdeps], ⟨_, _, rfl⟩, Or.inr ⟨_, rfl⟩⟩

/-- Conversely, every builder component survives into the pipeline output
with its id, type, description, confidence and inferred dependencies. -/
theorem pipeline_elem_exists {t : String} {e : Option (List String)}
    {b : Component}
    (hb : b ∈ buildComponents (extractActions t) (extractEntities t)
      (extractConstraints t e)) :
    ∃ c ∈ pipelineComponents t e, c.id = b.id ∧ c.type = b.type ∧
      c.description = b.description ∧
      c.dependencies = depsFor b
        (buildComponents (extractActions t) (extractEntities t)
          (extractConstraints t e)) (splitSentences t) := by
  have hdeps : b.dependencies = [] := (mem_buildComponents hb).1
  rw [pipelineComponents]
  refine ⟨_, mem_calcCriticality.mpr ⟨_, mem_calcCoupling.mpr
    ⟨_, mem_detectDependencies.mpr ⟨b, hb, rfl⟩, rfl⟩, rfl⟩, ?_⟩
  split
  · exact ⟨rfl, rfl, rfl, by simp [hdeps]⟩
  · exact ⟨rfl, rfl, rfl, by simp [hdeps]⟩

/-! ## Score bounds -/

theorem couplingScore_bounds (comps : List Component) (c : Component) :
    0 ≤ couplingScore comps c ∧ couplingScore comps c ≤ 1 := by
  unfold couplingScore
  refine ⟨le_min (div_nonneg (by positivity) (by positivity)) (by norm_num),
    min_le_right _ _⟩

theorem critScore_bounds (m : ℕ) :
    0 ≤ min (0.3 + (m : ℚ) * 0.15) 1 ∧ min (0.3 + (m : ℚ) * 0.15) 1 ≤ 1 :=
  ⟨le_min (by positivity) (by norm_num), min_le_right _ _⟩

/-! ## Inverting a successful `decompose` run -/

theorem decompose_inv {α : Type} {t : String} {ctx : Option α}
    {e : Option (List String)} {r : DecompositionResult}
    (h : decompose t ctx e = some r) :
    r.components = pipelineComponents t e ∧
    findCriticalPath (pipelineComponents t e) = some r.critical_path ∧
    calculateMaxDepth (pipelineComponents t e) = some r.max_depth ∧
    r.parallelizable = findParallelizable (pipelineComponents t e) ∧
    r.noise_detected = detectNoise t (pipelineComponents t e) := by
  simp only [decompose] at h
  rw [show calcCriticality (calcCoupling (detectDependencies
      (buildComponents (extractActions t) (extractEntities t)
        (extractConstraints t e)) t)) = pipelineComponents t e from rfl] at h
  cases hfc : findCriticalPath (pipelineComponents t e) with
  | none => rw [hfc] at h; cases h
  | some cp =>
    rw [hfc] at h
    cases hmd : calculateMaxDepth (pipelineComponents t e) with
    | none => rw [hmd] at h; cases h
    | some d =>
      rw [hmd] at h
      simp only [Option.some.injEq] at h
      subst h
      exact ⟨rfl, rfl, rfl, rfl, rfl⟩

theorem decompose_isSome {α : Type} (t : String) (ctx : Option α)
    (e : Option (List String))
    (h1 : (findCriticalPath (pipelineComponents t e)).isSome = true)
    (h2 : (calculateMaxDepth (pipelineComponents t e)).isSome = true) :
    ∃ r, decompose t ctx e = some r := by
  simp only [decompose]
  rw [show calcCriticality (calcCoupling (detectDependencies
      (buildComponents (extractActions t) (extractEntities t)
        (extractConstraints t e)) t)) = pipelineComponents t e from rfl]
  rcases Option.isSome_iff_exists.mp h1 with ⟨cp, hcp⟩
  rcases Option.isSome_iff_exists.mp h2 with ⟨d, hd⟩
  rw [hcp, hd]
  exact ⟨_, rfl⟩

/-! ## Dependency-list structure -/

theorem coMentionRule_true {b o : Component} {sents : List String}
    (h : coMentionRule b o sents = true) :
    b.id ≠ o.id ∧ b.type = CompType.action ∧
      (o.type = CompType.entity ∨
       (o.type = CompType.action ∧
        isSequential b.description o.description = true)) := by
  unfold coMentionRule at h
  simp only [Bool.and_eq_true, Bool.or_eq_true, decide_eq_true_eq, ne_eq] at h
  tauto

theorem mem_depsFor {b : Component} {B : List Component} {sents : List String}
    {d : String} (h : d ∈ depsFor b B sents) :
    ∃ o ∈ B, o.id = d ∧ (coMentionRule b o sents = true ∨
      (b.type ≠ CompType.constraint ∧ o.type = CompType.constraint)) := by
  unfold depsFor at h
  rcases List.mem_append.mp h with h1 | h2
  · rcases List.mem_map.mp h1 with ⟨o, ho, rfl⟩
    exact ⟨o, (List.mem_filter.mp ho).1, rfl,
      Or.inl (List.mem_filter.mp ho).2⟩
  · split at h2
    · rcases List.mem_map.mp h2 with ⟨o, ho, rfl⟩
      refine ⟨o, (List.mem_filter.mp ho).1, rfl, Or.inr ⟨by assumption, ?_⟩⟩
      have := (List.mem_filter.mp ho).2
      simpa using this
    · cases h2

theorem depsFor_nodup {b : Component} {B : List Component}
    {sents : List String} (hnd : (B.map Component.id).Nodup) :
    (depsFor b B sents).Nodup := by
  unfold depsFor
  have hsub1 : ((B.filter fun o => coMentionRule b o sents).map Component.id).Sublist
      (B.map Component.id) := (List.filter_sublist _).map _
  have hsub2 : ((B.filter fun o => decide (o.type = CompType.constraint)).map
      Component.id).Sublist (B.map Component.id) := (List.filter_sublist _).map _
  have h1 : ((B.filter fun o => coMentionRule b o sents).map Component.id).Nodup :=
    hnd.sublist hsub1
  split
  · refine List.Nodup.append h1 (hnd.sublist hsub2) ?_
    intro x hx1 hx2
    rcases List.mem_map.mp hx1 with ⟨o, ho, rfl⟩
    rcases List.mem_map.mp hx2 with ⟨o', ho', hid⟩
    have ho'' := List.mem_filter.mp ho
    have ho''' := List.mem_filter.mp ho'
    have heq : o' = o := id_inj_of_nodup hnd ho'''.1 ho''.1 hid
    rcases (coMentionRule_true ho''.2).2.2 with hent | ⟨hact, _⟩
    · have : o'.type = CompType.constraint := by simpa using ho'''.2
      rw [heq, hent] at this
      cases this
    · have : o'.type = CompType.constraint := by simpa using ho'''.2
      rw [heq, hact] at this
      cases this
  · simpa using h1

/-! ## Pipeline-level dependency invariants -/

theorem pipeline_deps_nodup {t : String} {e : Option (List String)} :
    ∀ c ∈ pipelineComponents t e, c.dependencies.Nodup := by
  intro c hc
  obtain ⟨b, hb, _, _, _, _, hdeps, _, _⟩ := pipeline_elem hc
  rw [hdeps]
  exact depsFor_nodup (buildComponents_ids_nodup _ _ _)

theorem pipeline_no_dangling {t : String} {e : Option (List String)} :
    ∀ c ∈ pipelineComponents t e, ∀ d ∈ c.dependencies,
      ∃ c' ∈ pipelineComponents t e, c'.id = d := by
  intro c hc d hd
  obtain ⟨b, hb, _, _, _, _, hdeps, _, _⟩ := pipeline_elem hc
  rw [hdeps] at hd
  obtain ⟨o, ho, hoid, _⟩ := mem_depsFor hd
  obtain ⟨c', hc', hcid, _, _⟩ := pipeline_elem_exists ho
  exact ⟨c', hc', hcid.trans hoid⟩

/-! ## Rank: every pipeline dependency edge strictly decreases it -/

theorem isSequential_seqRank {a1 a2 : String}
    (h : isSequential a1 a2 = true) : seqRank a2 < seqRank a1 := by
  unfold isSequential at h
  cases h1 : seqIdx a1 <;> cases h2 : seqIdx a2 <;> rw [h1, h2] at h <;>
    simp at h
  simp only [seqRank, h1, h2]
  omega

theorem rank_congr {c b : Component} (ht : c.type = b.type)
    (hd : c.description = b.description) : rank c = rank b := by
  unfold rank
  rw [ht, hd]

theorem seqRank_le_six (s : String) : seqRank s ≤ 6 := by
  cases h : seqIdx s with
  | none => simp [seqRank, h]
  | some i =>
    have := firstIdxWhere_lt_length h
    simp only [seqList, List.length_cons, List.length_nil] at this
    simp only [seqRank, h]
    omega

theorem rank_le_eight (c : Component) : rank c ≤ 8 := by
  have := seqRank_le_six c.description
  cases h : c.type <;> simp [rank, h] <;> omega

theorem coMentionRule_constraint {b o : Component} {sents : List String}
    (h : b.type = CompType.constraint) : coMentionRule b o sents = false := by
  unfold coMentionRule
  simp [h]

theorem depsFor_constraint {b : Component} {B : List Component}
    {sents : List String} (h : b.type = CompType.constraint) :
    depsFor b B sents = [] := by
  unfold depsFor
  rw [List.filter_eq_nil.mpr fun o _ => by simp [coMentionRule_constraint h]]
  simp [h]

theorem constraint_mem_depsFor {b o : Component} {B : List Component}
    {sents : List String} (hb : b.type ≠ CompType.constraint) (ho : o ∈ B)
    (hot : o.type = CompType.constraint) : o.id ∈ depsFor b B sents := by
  unfold depsFor
  refine List.mem_append_right _ ?_
  rw [if_pos hb]
  exact List.mem_map.mpr ⟨o, List.mem_filter.mpr ⟨ho, by simp [hot]⟩, rfl⟩

theorem rank_pos_of_ne_constraint {b : Component}
    (h : b.type ≠ CompType.constraint) : 0 < rank b := by
  cases ht : b.type
  · simp [rank, ht]
  · simp [rank, ht]
  · exact absurd ht h
  · simp [rank, ht]

theorem pipeline_rank_decrease {t : String} {e : Option (List String)} :
    ∀ c ∈ pipelineComponents t e, ∀ d ∈ c.dependencies,
      ∃ c' ∈ pipelineComponents t e, c'.id = d ∧ rank c' < rank c := by
  intro c hc d hd
  obtain ⟨b, hb, _, htype, hdescr, _, hdeps, _, _⟩ := pipeline_elem hc
  have hrcb : rank c = rank b := rank_congr htype hdescr
  rw [hdeps] at hd
  obtain ⟨o, ho, hoid, hrule⟩ := mem_depsFor hd
  obtain ⟨c', hc', hid', htype', hdescr', _⟩ := pipeline_elem_exists ho
  have hrco : rank c' = rank o := rank_congr htype' hdescr'
  refine ⟨c', hc', hid'.trans hoid, ?_⟩
  rw [hrcb, hrco]
  rcases hrule with hcm | ⟨hbnc, hoc⟩
  · obtain ⟨_, hbact, hor⟩ := coMentionRule_true hcm
    have hbb : rank b = 2 + seqRank b.description := by simp [rank, hbact]
    rcases hor with hent | ⟨hact, hseq⟩
    · have hob : rank o = 1 := by simp [rank, hent]
      omega
    · have hob : rank o = 2 + seqRank o.description := by simp [rank, hact]
      have := isSequential_seqRank hseq
      omega
  · have hob : rank o = 0 := by simp [rank, hoc]
    have := rank_pos_of_ne_constraint hbnc
    omega

/-! ## C9, C8: easy claims over the whole pipeline -/

/-- C9: the `context` argument never influences the result of `decompose` —
for any problem text and explicit constraints, two runs with arbitrary
context values (even of different types) return identical results
(components, dependencies, scores, critical path, parallel groups, noise and
warnings), with the wall-clock trace entry modelled out. -/
theorem C9_context_noninterference :
    ∀ (α β : Type) (t : String) (c₁ : Option α) (c₂ : Option β)
      (e : Option (List String)), decompose t c₁ e = decompose t c₂ e :=
  fun _ _ _ _ _ _ => rfl

/-- C8: code bug at the empty input.  The empty string is shorter than 50
characters, yet `decompose` produces no result at all: with no components,
`max(components, ...)` in `_find_critical_path` raises `ValueError`
(modelled as `none`), so no `epistemic` noise descriptor is ever returned,
contradicting the repository's own `test_empty_problem` and
`test_noise_detection` expectations. -/
theorem C8_empty_input_crash :
    decompose "" (none : Option Unit) none = none ∧ ("" : String).length < 50 :=
  ⟨rfl, by decide⟩

/-! ## The depth-first walk of `_find_critical_path` -/

theorem dfsDepsWith_mono
    {f : String → DfsState → Option (ℕ × DfsState)}
    (hf : ∀ cid st n st', f cid st = some (n, st') →
      ∃ A, st'.visited = st.visited ++ A) :
    ∀ (ds : List String) (st : DfsState) (ns : List ℕ) (st' : DfsState),
      dfsDepsWith f ds st = some (ns, st') →
      ∃ A, st'.visited = st.visited ++ A := by
  intro ds
  induction ds with
  | nil =>
    intro st ns st' h
    simp only [dfsDepsWith] at h
    cases h
    exact ⟨[], (List.append_nil _).symm⟩
  | cons d rest ih =>
    intro st ns st' h
    simp only [dfsDepsWith] at h
    split at h
    · simp at h
    · rename_i n1 st1 h1
      split at h
      · simp at h
      · rename_i ns1 st2 h2
        cases h
        obtain ⟨A1, hA1⟩ := hf _ _ _ _ h1
        obtain ⟨A2, hA2⟩ := ih _ _ _ h2
        exact ⟨A1 ++ A2, by rw [hA2, hA1, List.append_assoc]⟩

theorem dfsVisit_mono (comps : List Component) :
    ∀ (fuel : ℕ) (cid : String) (st : DfsState) (n : ℕ) (st' : DfsState),
      dfsVisit comps fuel cid st = some (n, st') →
      ∃ A, st'.visited = st.visited ++ A := by
  intro fuel
  induction fuel with
  | zero =>
    intro cid st n st' h
    exact absurd h (by simp [dfsVisit])
  | succ fuel ih =>
    intro cid st n st' h
    simp only [dfsVisit] at h
    split at h
    · cases h
      exact ⟨[], (List.append_nil _).symm⟩
    · split at h
      · simp at h
      · rename_i hv comp hfind
        split at h
        · cases h
          exact ⟨[cid], rfl⟩
        · split at h
          · simp at h
          · rename_i ds2 st2 hdd
            cases h
            obtain ⟨A2, hA2⟩ := dfsDepsWith_mono ih _ _ _ _ hdd
            exact ⟨cid :: A2, by rw [hA2]; simp⟩

theorem unvis_card_mono {ids v A : List String} :
    (ids.toFinset \ (v ++ A).toFinset).card ≤ (ids.toFinset \ v.toFinset).card :=
  Finset.card_le_card (Finset.sdiff_subset_sdiff (le_refl _)
    (fun x hx => List.mem_toFinset.mpr
      (List.mem_append_left _ (List.mem_toFinset.mp hx))))

theorem unvis_card_lt {ids v : List String} {cid : String}
    (hid : cid ∈ ids) (hv : cid ∉ v) :
    (ids.toFinset \ (v ++ [cid]).toFinset).card
      < (ids.toFinset \ v.toFinset).card := by
  apply Finset.card_lt_card
  rw [Finset.ssubset_iff_of_subset (Finset.sdiff_subset_sdiff (le_refl _)
    (fun x hx => List.mem_toFinset.mpr
      (List.mem_append_left _ (List.mem_toFinset.mp hx))))]
  refine ⟨cid, Finset.mem_sdiff.mpr
    ⟨List.mem_toFinset.mpr hid, fun hc => hv (List.mem_toFinset.mp hc)⟩,
    fun hc => (Finset.mem_sdiff.mp hc).2 (List.mem_toFinset.mpr
      (List.mem_append_right _ (List.mem_singleton.mpr rfl)))⟩

theorem dfs_isSome (comps : List Component)
    (hND : ∀ c ∈ comps, ∀ d ∈ c.dependencies, d ∈ comps.map Component.id) :
    ∀ fuel : ℕ,
      (∀ cid st, cid ∈ comps.map Component.id →
        ((comps.map Component.id).toFinset \ st.visited.toFinset).card < fuel →
        (dfsVisit comps fuel cid st).isSome = true) ∧
      (∀ (ds : List String) (st : DfsState),
        (∀ d ∈ ds, d ∈ comps.map Component.id) →
        ((comps.map Component.id).toFinset \ st.visited.toFinset).card < fuel →
        (dfsDepsWith (dfsVisit comps fuel) ds st).isSome = true) := by
  intro fuel
  induction fuel with
  | zero =>
    exact ⟨fun _ _ _ hcard => absurd hcard (by omega),
      fun _ _ _ hcard => absurd hcard (by omega)⟩
  | succ fuel ih =>
    have hvisit : ∀ cid st, cid ∈ comps.map Component.id →
        ((comps.map Component.id).toFinset \ st.visited.toFinset).card < fuel + 1 →
        (dfsVisit comps (fuel + 1) cid st).isSome = true := by
      intro cid st hcid hcard
      simp only [dfsVisit]
      split
      · rfl
      · split
        · rename_i hv _sc hfind
          obtain ⟨comp, hf2⟩ := find?_id_isSome hcid
          rw [hfind] at hf2
          cases hf2
        · rename_i hv _sc comp hfind
          split
          · rfl
          · rename_i hde
            have hcomp := find?_id_mem hfind
            have hlt := unvis_card_lt hcid
              (show cid ∉ st.visited by simpa using hv)
            have hsome := ih.2 comp.dependencies ⟨st.visited ++ [cid], st.path⟩
              (hND comp hcomp.1)
              (show ((comps.map Component.id).toFinset \
                (st.visited ++ [cid]).toFinset).card < fuel by omega)
            split
            · rename_i hdd
              rw [hdd] at hsome
              simp at hsome
            · rfl
    refine ⟨hvisit, ?_⟩
    intro ds
    induction ds with
    | nil => intro st _ _; rfl
    | cons d rest ihds =>
      intro st hds hcard
      simp only [dfsDepsWith]
      have h1 := hvisit d st (hds d (List.mem_cons_self _ _)) hcard
      split
      · rename_i hdvn
        rw [hdvn] at h1
        simp at h1
      · rename_i n1 st1 hdv
        obtain ⟨A, hA⟩ := dfsVisit_mono comps (fuel + 1) d st n1 st1 hdv
        have hle : ((comps.map Component.id).toFinset \ st1.visited.toFinset).card
            ≤ ((comps.map Component.id).toFinset \ st.visited.toFinset).card := by
          rw [hA]
          exact unvis_card_mono
        have h2 := ihds st1 (fun d' hd' => hds d' (List.mem_cons_of_mem _ hd'))
          (by omega)
        split
        · rename_i hddn
          rw [hddn] at h2
          simp at h2
        · rfl

theorem dfsCore_nil (comps : List Component) (reach : String → Prop)
    (st : DfsState) : dfsCore comps reach st st [] [] :=
  ⟨by simp, by simp, by simp, by simp, List.nodup_nil, by simp, by simp, by simp⟩

theorem dfs_shape (comps : List Component) :
    ∀ fuel : ℕ,
      (∀ cid st n st', dfsVisit comps fuel cid st = some (n, st') →
        ∃ A B, dfsCore comps (Relation.ReflTransGen (stepRel comps) cid) st st' A B ∧
          cid ∈ st'.visited ∧
          (cid ∉ st.visited → ∃ B₀, B = B₀ ++ [cid])) ∧
      (∀ (ds : List String) (st : DfsState) ns st',
        dfsDepsWith (dfsVisit comps fuel) ds st = some (ns, st') →
        ∃ A B, dfsCore comps
            (fun x => ∃ d ∈ ds, Relation.ReflTransGen (stepRel comps) d x)
            st st' A B ∧
          ∀ d ∈ ds, d ∈ st'.visited) := by
  intro fuel
  induction fuel with
  | zero =>
    constructor
    · intro cid st n st' h
      exact absurd h (by simp [dfsVisit])
    · intro ds st ns st' h
      cases ds with
      | nil =>
        simp only [dfsDepsWith] at h
        cases h
        exact ⟨[], [], dfsCore_nil _ _ _, by simp⟩
      | cons d rest =>
        exact absurd h (by simp [dfsDepsWith, dfsVisit])
  | succ fuel ih =>
    have hvisit : ∀ cid st n st', dfsVisit comps (fuel + 1) cid st = some (n, st') →
        ∃ A B, dfsCore comps (Relation.ReflTransGen (stepRel comps) cid) st st' A B ∧
          cid ∈ st'.visited ∧
          (cid ∉ st.visited → ∃ B₀, B = B₀ ++ [cid]) := by
      intro cid st n st' h
      simp only [dfsVisit] at h
      split at h
      · rename_i hv
        cases h
        exact ⟨[], [], dfsCore_nil _ _ _, by simpa using hv,
          fun hni => absurd (by simpa using hv) hni⟩
      · split at h
        · simp at h
        · rename_i hv _sc comp hfind
          have hvm : cid ∉ st.visited := by simpa using hv
          have hcm := find?_id_mem hfind
          split at h
          · rename_i hde
            cases h
            refine ⟨[cid], [cid], ⟨rfl, rfl, ?_, by simp, List.nodup_singleton _,
              ?_, ?_, ?_⟩, List.mem_append_right _ (List.mem_singleton.mpr rfl),
              fun _ => ⟨[], rfl⟩⟩
            · intro x hx
              rcases List.mem_singleton.mp hx with rfl
              exact hvm
            · intro x hx
              rcases List.mem_singleton.mp hx with rfl
              exact List.mem_map.mpr ⟨comp, hcm.1, hcm.2⟩
            · intro x hx
              rcases List.mem_singleton.mp hx with rfl
              exact Relation.ReflTransGen.refl
            · intro x hx c hc d hd
              rcases List.mem_singleton.mp hx with rfl
              have : c = comp := by
                rw [hfind] at hc
                exact (Option.some.inj hc).symm
              subst this
              rw [List.isEmpty_iff] at hde
              rw [hde] at hd
              cases hd
          · split at h
            · simp at h
            · rename_i hde _sc2 ds2 st2 hdd
              cases h
              obtain ⟨A2, B2, ⟨hc1, hc2, hc3, hc4, hc5, hc6, hc7, hc8⟩, hdeps_vis⟩ :=
                ih.2 comp.dependencies _ _ _ hdd
              simp only [DfsState.visited, DfsState.path] at hc1 hc2 hc3 hc8
              refine ⟨cid :: A2, B2 ++ [cid], ⟨?_, ?_, ?_, ?_, ?_, ?_, ?_, ?_⟩,
                ?_, fun _ => ⟨B2, rfl⟩⟩
              · show st2.visited = st.visited ++ cid :: A2
                rw [hc1]
                simp
              · show st2.path ++ [cid] = st.path ++ (B2 ++ [cid])
                rw [hc2]
                simp
              · intro x hx
                rcases List.mem_cons.mp hx with rfl | hx'
                · exact hvm
                · intro hmem
                  exact hc3 x hx' (List.mem_append_left _ hmem)
              · intro x
                rw [List.mem_cons, List.mem_append, List.mem_singleton, hc4 x]
                tauto
              · refine List.Nodup.append hc5 (List.nodup_singleton _) ?_
                intro x hx1 hx2
                rcases List.mem_singleton.mp hx2 with rfl
                exact hc3 x ((hc4 x).mpr hx1)
                  (List.mem_append_right _ (List.mem_singleton.mpr rfl))
              · intro x hx
                rcases List.mem_cons.mp hx with rfl | hx'
                · exact List.mem_map.mpr ⟨comp, hcm.1, hcm.2⟩
                · exact hc6 x hx'
              · intro x hx
                rcases List.mem_cons.mp hx with rfl | hx'
                · exact Relation.ReflTransGen.refl
                · obtain ⟨d, hd, hrtg⟩ := hc7 x hx'
                  exact Relation.ReflTransGen.head ⟨comp, hcm.1, hcm.2, hd⟩ hrtg
              · intro x hx c hc d hd
                rcases List.mem_cons.mp hx with rfl | hx'
                · have : c = comp := by
                    rw [hfind] at hc
                    exact (Option.some.inj hc).symm
                  subst this
                  exact hdeps_vis d hd
                · exact hc8 x hx' c hc d hd
              · show cid ∈ st2.visited
                rw [hc1]
                exact List.mem_append_left _ (List.mem_append_right _
                  (List.mem_singleton.mpr rfl))
    refine ⟨hvisit, ?_⟩
    intro ds
    induction ds with
    | nil =>
      intro st ns st' h
      simp only [dfsDepsWith] at h
      cases h
      exact ⟨[], [], dfsCore_nil _ _ _, by simp⟩
    | cons d rest ihds =>
      intro st ns st' h
      simp only [dfsDepsWith] at h
      split at h
      · simp at h
      · rename_i n1 st1 hdv
        split at h
        · simp at h
        · rename_i ns1 st2 hdd
          cases h
          obtain ⟨A1, B1, ⟨h11, h12, h13, h14, h15, h16, h17, h18⟩, hdv1, _⟩ :=
            hvisit d st n1 st1 hdv
          obtain ⟨A2, B2, ⟨h21, h22, h23, h24, h25, h26, h27, h28⟩, hrest⟩ :=
            ihds st1 _ _ hdd
          refine ⟨A1 ++ A2, B1 ++ B2, ⟨?_, ?_, ?_, ?_, ?_, ?_, ?_, ?_⟩, ?_⟩
          · rw [h21, h11, List.append_assoc]
          · rw [h22, h12, List.append_assoc]
          · intro x hx
            rcases List.mem_append.mp hx with hx' | hx'
            · exact h13 x hx'
            · intro hmem
              exact h23 x hx' (by rw [h11]; exact List.mem_append_left _ hmem)
          · intro x
            rw [List.mem_append, List.mem_append, h14 x, h24 x]
          · refine List.Nodup.append h15 h25 ?_
            intro x hx1 hx2
            have hxa1 : x ∈ A1 := (h14 x).mpr hx1
            have hxa2 : x ∈ A2 := (h24 x).mpr hx2
            exact h23 x hxa2 (by rw [h11]; exact List.mem_append_right _ hxa1)
          · intro x hx
            rcases List.mem_append.mp hx with hx' | hx'
            · exact h16 x hx'
            · exact h26 x hx'
          · intro x hx
            rcases List.mem_append.mp hx with hx' | hx'
            · exact ⟨d, List.mem_cons_self _ _, h17 x hx'⟩
            · obtain ⟨d', hd', hrtg⟩ := h27 x hx'
              exact ⟨d', List.mem_cons_of_mem _ hd', hrtg⟩
          · intro x hx c hc d' hd'
            rcases List.mem_append.mp hx with hx' | hx'
            · have := h18 x hx' c hc d' hd'
              rw [h21]
              exact List.mem_append_left _ this
            · exact h28 x hx' c hc d' hd'
          · intro d' hd'
            rcases List.mem_cons.mp hd' with rfl | hd''
            · rw [h21]
              exact List.mem_append_left _ hdv1
            · exact hrest d' hd''

/-! ## The fuelled depth recursion of `_calculate_max_depth` -/

theorem getDepth_isSome (comps : List Component)
    (H : ∀ c ∈ comps, ∀ d ∈ c.dependencies,
      ∃ c', comps.find? (fun y => y.id = d) = some c' ∧ rank c' < rank c) :
    ∀ fuel : ℕ,
      (∀ cid c, comps.find? (fun y => y.id = cid) = some c → rank c < fuel →
        (getDepthAux comps fuel cid).isSome = true) ∧
      (∀ ds : List String,
        (∀ d ∈ ds, ∃ c', comps.find? (fun y => y.id = d) = some c' ∧
          rank c' < fuel) →
        (getDepthListWith (getDepthAux comps fuel) ds).isSome = true) := by
  intro fuel
  induction fuel with
  | zero =>
    constructor
    · intro cid c _ hrank
      exact absurd hrank (by omega)
    · intro ds hds
      cases ds with
      | nil => rfl
      | cons d rest =>
        obtain ⟨c', _, hr⟩ := hds d (List.mem_cons_self _ _)
        exact absurd hr (by omega)
  | succ fuel ih =>
    have haux : ∀ cid c, comps.find? (fun y => y.id = cid) = some c →
        rank c < fuel + 1 → (getDepthAux comps (fuel + 1) cid).isSome = true := by
      intro cid c hfind hrank
      simp only [getDepthAux]
      split
      · rename_i hfn
        rw [hfn] at hfind
        cases hfind
      · rename_i _sc comp hfc
        have hceq : comp = c := by
          rw [hfind] at hfc
          exact (Option.some.inj hfc).symm
        subst hceq
        have hmem := find?_id_mem hfc
        split
        · rfl
        · rename_i hde
          have hlist := ih.2 comp.dependencies (fun d hd => by
            obtain ⟨c'', hf'', hr''⟩ := H comp hmem.1 d hd
            exact ⟨c'', hf'', by omega⟩)
          split
          · rename_i hn
            rw [hn] at hlist
            simp at hlist
          · rfl
    refine ⟨haux, ?_⟩
    intro ds hds
    induction ds with
    | nil => rfl
    | cons d rest ihds =>
      obtain ⟨c', hf', hr'⟩ := hds d (List.mem_cons_self _ _)
      have h1 := haux d c' hf' hr'
      cases h1' : getDepthAux comps (fuel + 1) d with
      | none => rw [h1'] at h1; simp at h1
      | some n' =>
        have h2 := ihds (fun d' hd' => hds d' (List.mem_cons_of_mem _ hd'))
        cases h2' : getDepthListWith (getDepthAux comps (fuel + 1)) rest with
        | none => rw [h2'] at h2; simp at h2
        | some ns' =>
          simp only [getDepthListWith, h1', h2']
          rfl

theorem pipeline_no_dangling_ids {t : String} {e : Option (List String)} :
    ∀ c ∈ pipelineComponents t e, ∀ d ∈ c.dependencies,
      d ∈ (pipelineComponents t e).map Component.id := by
  intro c hc d hd
  obtain ⟨c', hc', hid⟩ := pipeline_no_dangling c hc d hd
  exact hid ▸ List.mem_map_of_mem _ hc'

theorem calculateMaxDepth_isSome (t : String) (e : Option (List String)) :
    (calculateMaxDepth (pipelineComponents t e)).isSome = true := by
  have hnd := pipeline_ids_nodup t e
  have H : ∀ c ∈ pipelineComponents t e, ∀ d ∈ c.dependencies,
      ∃ c', (pipelineComponents t e).find? (fun y => y.id = d) = some c' ∧
        rank c' < rank c := by
    intro c hc d hd
    obtain ⟨c', hc', hid, hr⟩ := pipeline_rank_decrease c hc d hd
    exact ⟨c', by rw [← hid]; exact find?_id_of_nodup hnd hc', hr⟩
  have hlist := (getDepth_isSome (pipelineComponents t e) H depthFuel).2
    ((pipelineComponents t e).map Component.id) (fun d hd => by
      obtain ⟨c, hcmem, rfl⟩ := List.mem_map.mp hd
      refine ⟨c, find?_id_of_nodup hnd hcmem, ?_⟩
      have := rank_le_eight c
      simp only [depthFuel]
      omega)
  simp only [calculateMaxDepth]
  cases hgl : getDepthListWith
      (getDepthAux (pipelineComponents t e) depthFuel)
      ((pipelineComponents t e).map Component.id) with
  | none => rw [hgl] at hlist; simp at hlist
  | some ds => rfl

/-! ## Python `max` with a key function -/

theorem pyMaxFold_spec (l : List Component) :
    ∀ (c r : Component),
      l.foldl (fun best x =>
        if best.criticality.score < x.criticality.score then x else best) c = r →
      ∃ i, (c :: l)[i]? = some r ∧
        (∀ y ∈ c :: l, y.criticality.score ≤ r.criticality.score) ∧
        ∀ z ∈ (c :: l).take i, z.criticality.score < r.criticality.score := by
  induction l with
  | nil =>
    intro c r h
    simp only [List.foldl_nil] at h
    subst h
    refine ⟨0, rfl, ?_, by simp⟩
    intro y hy
    rcases List.mem_cons.mp hy with rfl | hy'
    · exact le_refl _
    · cases hy'
  | cons x l ih =>
    intro c r h
    rw [List.foldl_cons] at h
    by_cases hcx : c.criticality.score < x.criticality.score
    · rw [if_pos hcx] at h
      obtain ⟨i, hi, hle, hlt⟩ := ih x r h
      have hxr : x.criticality.score ≤ r.criticality.score :=
        hle x (List.mem_cons_self _ _)
      refine ⟨i + 1, by simpa using hi, ?_, ?_⟩
      · intro y hy
        rcases List.mem_cons.mp hy with rfl | hy'
        · exact le_trans (le_of_lt hcx) hxr
        · exact hle y hy'
      · intro z hz
        rw [List.take_succ_cons] at hz
        rcases List.mem_cons.mp hz with rfl | hz'
        · exact lt_of_lt_of_le hcx hxr
        · exact hlt z hz'
    · rw [if_neg hcx] at h
      obtain ⟨i, hi, hle, hlt⟩ := ih c r h
      have hcr : c.criticality.score ≤ r.criticality.score :=
        hle c (List.mem_cons_self _ _)
      have hxleq : x.criticality.score ≤ r.criticality.score :=
        le_trans (le_of_not_lt hcx) hcr
      cases i with
      | zero =>
        refine ⟨0, by simpa using hi, ?_, by simp⟩
        intro y hy
        rcases List.mem_cons.mp hy with rfl | hy'
        · exact hcr
        rcases List.mem_cons.mp hy' with rfl | hy''
        · exact hxleq
        · exact hle y (List.mem_cons_of_mem _ hy'')
      | succ j =>
        have hcfirst : c.criticality.score < r.criticality.score := by
          apply hlt
          rw [List.take_succ_cons]
          exact List.mem_cons_self _ _
        refine ⟨j + 2, by simpa using hi, ?_, ?_⟩
        · intro y hy
          rcases List.mem_cons.mp hy with rfl | hy'
          · exact hcr
          rcases List.mem_cons.mp hy' with rfl | hy''
          · exact hxleq
          · exact hle y (List.mem_cons_of_mem _ hy'')
        · intro z hz
          rw [List.take_succ_cons, List.take_succ_cons] at hz
          rcases List.mem_cons.mp hz with rfl | hz'
          · exact hcfirst
          rcases List.mem_cons.mp hz' with rfl | hz''
          · exact lt_of_le_of_lt (le_of_not_lt hcx) hcfirst
          · exact hlt z (by rw [List.take_succ_cons]; exact List.mem_cons_of_mem _ hz'')

theorem pyMaxCriticality_spec {comps : List Component} {root : Component}
    (h : pyMaxCriticality comps = some root) :
    root ∈ comps ∧
    (∀ y ∈ comps, y.criticality.score ≤ root.criticality.score) ∧
    ∃ i, comps[i]? = some root ∧
      ∀ z ∈ comps.take i, z.criticality.score < root.criticality.score := by
  cases comps with
  | nil => cases h
  | cons c l =>
    simp only [pyMaxCriticality] at h
    obtain ⟨i, hi, hle, hlt⟩ := pyMaxFold_spec l c root (Option.some.inj h)
    have hmem : root ∈ c :: l := by
      have := List.getElem?_eq_some.mp hi
      obtain ⟨hilt, hg⟩ := this
      exact hg ▸ List.getElem_mem _
    exact ⟨hmem, hle, i, hi, hlt⟩

/-! ## The critical path characterised -/

theorem findCriticalPath_spec (comps : List Component)
    (hND : ∀ c ∈ comps, ∀ d ∈ c.dependencies, d ∈ comps.map Component.id)
    (hne : comps ≠ []) :
    ∃ root path, pyMaxCriticality comps = some root ∧
      findCriticalPath comps = some path ∧
      path.head? = some root.id ∧ path.Nodup ∧
      (∀ x ∈ path, x ∈ comps.map Component.id) ∧
      (∀ x ∈ path, Relation.ReflTransGen (stepRel comps) root.id x) ∧
      ((comps.map Component.id).Nodup →
        ∀ x, Relation.ReflTransGen (stepRel comps) root.id x → x ∈ path) := by
  have hpm : ∃ root, pyMaxCriticality comps = some root := by
    cases comps with
    | nil => exact absurd rfl hne
    | cons c l => exact ⟨_, rfl⟩
  obtain ⟨root, hroot⟩ := hpm
  have hrootmem : root ∈ comps := (pyMaxCriticality_spec hroot).1
  have hrootid : root.id ∈ comps.map Component.id :=
    List.mem_map_of_mem _ hrootmem
  have hcard : ((comps.map Component.id).toFinset \
      (([] : List String)).toFinset).card < comps.length + 1 := by
    have h2 : (comps.map Component.id).toFinset.card
        ≤ (comps.map Component.id).length := List.toFinset_card_le _
    rw [List.length_map] at h2
    simpa using lt_of_le_of_lt h2 (Nat.lt_succ_self _)
  have hsome := (dfs_isSome comps hND (comps.length + 1)).1 root.id ⟨[], []⟩
    hrootid hcard
  rcases Option.isSome_iff_exists.mp hsome with ⟨⟨n, stf⟩, hdfs⟩
  obtain ⟨A, B, ⟨hc1, hc2, hc3, hc4, hc5, hc6, hc7, hc8⟩, hrv, hlast⟩ :=
    (dfs_shape comps (comps.length + 1)).1 root.id ⟨[], []⟩ n stf hdfs
  have hva : stf.visited = A := by simpa using hc1
  have hpb : stf.path = B := by simpa using hc2
  obtain ⟨B₀, hB₀⟩ := hlast (by simp)
  refine ⟨root, stf.path.reverse, hroot, ?_, ?_, ?_, ?_, ?_, ?_⟩
  · simp only [findCriticalPath, hroot, hdfs]
  · rw [List.head?_reverse, hpb, hB₀, List.getLast?_concat]
  · rw [hpb]
    exact List.nodup_reverse.mpr hc5
  · intro x hx
    rw [hpb, List.mem_reverse] at hx
    exact hc6 x ((hc4 x).mpr hx)
  · intro x hx
    rw [hpb, List.mem_reverse] at hx
    exact hc7 x ((hc4 x).mpr hx)
  · intro hnodup x hrtg
    rw [hpb, List.mem_reverse]
    refine (hc4 x).mp ?_
    rw [← hva]
    induction hrtg with
    | refl => exact hrv
    | tail hab hbc ihx =>
      obtain ⟨c, hcmem, hcid, hbd⟩ := hbc
      exact hc8 _ (hva ▸ ihx) c
        (by rw [← hcid]; exact find?_id_of_nodup hnodup hcmem) _ hbd

theorem decompose_total {α : Type} (t : String) (ctx : Option α)
    (e : Option (List String)) (hne : pipelineComponents t e ≠ []) :
    ∃ r, decompose t ctx e = some r := by
  apply decompose_isSome
  · obtain ⟨root, path, _, hfc, _⟩ :=
      findCriticalPath_spec (pipelineComponents t e)
        pipeline_no_dangling_ids hne
    rw [hfc]
    rfl
  · exact calculateMaxDepth_isSome t e

/-! ## The greedy parallelizable grouping -/

theorem groupScan_spec (comp : Component) (l : List Component) :
    ∀ (group processed : List String),
      ∃ extra, (groupScan comp l group processed).1 = group ++ extra ∧
        (groupScan comp l group processed).2 = processed ++ extra ∧
        ∀ x ∈ extra, ∃ other ∈ l, other.id = x ∧
          comp.dependencies.contains other.id = false ∧
          other.dependencies.contains comp.id = false := by
  induction l with
  | nil =>
    intro group processed
    exact ⟨[], by simp [groupScan], by simp [groupScan], by simp⟩
  | cons o rest ih =>
    intro group processed
    by_cases h1 : processed.contains o.id = true
    · rw [show groupScan comp (o :: rest) group processed
          = groupScan comp rest group processed by
        simp only [groupScan]
        rw [if_pos h1]]
      obtain ⟨extra, e1, e2, e3⟩ := ih group processed
      exact ⟨extra, e1, e2, fun x hx =>
        let ⟨other, ho, rest'⟩ := e3 x hx
        ⟨other, List.mem_cons_of_mem _ ho, rest'⟩⟩
    · by_cases h2 : (comp.dependencies.contains o.id ||
          o.dependencies.contains comp.id) = true
      · rw [show groupScan comp (o :: rest) group processed
            = groupScan comp rest group processed by
          simp only [groupScan]
          rw [if_neg h1, if_pos h2]]
        obtain ⟨extra, e1, e2, e3⟩ := ih group processed
        exact ⟨extra, e1, e2, fun x hx =>
          let ⟨other, ho, rest'⟩ := e3 x hx
          ⟨other, List.mem_cons_of_mem _ ho, rest'⟩⟩
      · rw [show groupScan comp (o :: rest) group processed
            = groupScan comp rest (group ++ [o.id]) (processed ++ [o.id]) by
          simp only [groupScan]
          rw [if_neg h1, if_neg h2]]
        obtain ⟨extra, e1, e2, e3⟩ := ih (group ++ [o.id]) (processed ++ [o.id])
        simp only [Bool.or_eq_true, not_or, Bool.not_eq_true] at h2
        refine ⟨o.id :: extra, by simpa using e1, by simpa using e2,
          fun x hx => ?_⟩
        rcases List.mem_cons.mp hx with rfl | hx'
        · exact ⟨o, List.mem_cons_self _ _, rfl, h2.1, h2.2⟩
        · let ⟨other, ho, rest'⟩ := e3 x hx'
          exact ⟨other, List.mem_cons_of_mem _ ho, rest'⟩

theorem parallelScan_spec (allComps : List Component) :
    ∀ (l : List Component) (processed : List String) (g : List String),
      g ∈ parallelScan allComps l processed →
      ∃ comp ∈ l, 1 < g.length ∧ ∃ extra, g = comp.id :: extra ∧
        ∀ x ∈ extra, ∃ other ∈ allComps, other.id = x ∧
          comp.dependencies.contains other.id = false ∧
          other.dependencies.contains comp.id = false := by
  intro l
  induction l with
  | nil => intro processed g hg; simp [parallelScan] at hg
  | cons c0 rest ih =>
    intro processed g hg
    by_cases h1 : processed.contains c0.id = true
    · rw [show parallelScan allComps (c0 :: rest) processed
          = parallelScan allComps rest processed by
        simp only [parallelScan]
        rw [if_pos h1]] at hg
      obtain ⟨comp, hcomp, hrest⟩ := ih processed g hg
      exact ⟨comp, List.mem_cons_of_mem _ hcomp, hrest⟩
    · obtain ⟨extra, e1, e2, e3⟩ :=
        groupScan_spec c0 allComps [c0.id] (processed ++ [c0.id])
      by_cases h2 :
          1 < (groupScan c0 allComps [c0.id] (processed ++ [c0.id])).1.length
      · rw [show parallelScan allComps (c0 :: rest) processed
            = (groupScan c0 allComps [c0.id] (processed ++ [c0.id])).1 ::
              parallelScan allComps rest
                (groupScan c0 allComps [c0.id] (processed ++ [c0.id])).2 by
          simp only [parallelScan]
          rw [if_neg h1, if_pos h2]] at hg
        rcases List.mem_cons.mp hg with rfl | hg'
        · exact ⟨c0, List.mem_cons_self _ _, h2, extra, by simpa using e1, e3⟩
        · obtain ⟨comp, hcomp, hrest⟩ := ih _ _ hg'
          exact ⟨comp, List.mem_cons_of_mem _ hcomp, hrest⟩
      · rw [show parallelScan allComps (c0 :: rest) processed
            = parallelScan allComps rest
                (groupScan c0 allComps [c0.id] (processed ++ [c0.id])).2 by
          simp only [parallelScan]
          rw [if_neg h1, if_neg h2]] at hg
        obtain ⟨comp, hcomp, hrest⟩ := ih _ _ hg
        exact ⟨comp, List.mem_cons_of_mem _ hcomp, hrest⟩

/-! ## Acyclicity -/

theorem stepRel_rank {t : String} {e : Option (List String)} :
    ∀ a b, stepRel (pipelineComponents t e) a b →
      rankOf (pipelineComponents t e) b < rankOf (pipelineComponents t e) a := by
  rintro a b ⟨c, hc, hcid, hbd⟩
  have hnd := pipeline_ids_nodup t e
  obtain ⟨c', hc', hid', hr⟩ := pipeline_rank_decrease c hc b hbd
  have hfa : (pipelineComponents t e).find? (fun y => y.id = a) = some c := by
    rw [← hcid]
    exact find?_id_of_nodup hnd hc
  have hfb : (pipelineComponents t e).find? (fun y => y.id = b) = some c' := by
    rw [← hid']
    exact find?_id_of_nodup hnd hc'
  simp only [rankOf, hfa, hfb]
  exact hr

theorem ne_nil_of_isEmpty_false {l : List Component}
    (h : l.isEmpty = false) : l ≠ [] := by
  intro hn
  rw [hn] at h
  simp at h

/-! ## C1: parallel groups -/

/-- C1 amended: every retained group has at least 2 members, its first
element is the id of the component the group was seeded from, and no other
member has a direct dependency edge (in either direction) with that seed;
two non-seed members of the same group may still have an edge between them. -/
theorem C1_groups_independent_of_seed :
    ∀ {α : Type} (t : String) (ctx : Option α) (e : Option (List String))
      (r : DecompositionResult), decompose t ctx e = some r →
      ∀ g ∈ r.parallelizable, 2 ≤ g.length ∧
        ∃ seed ∈ r.components, g.head? = some seed.id ∧
          ∀ c ∈ r.components, c.id ∈ g → c.id ≠ seed.id →
            seed.id ∉ c.dependencies ∧ c.id ∉ seed.dependencies := by
  intro α t ctx e r h g hg
  have hpar := (decompose_inv h).2.2.2.1
  have hcomp := (decompose_inv h).1
  rw [hpar] at hg
  unfold findParallelizable at hg
  obtain ⟨comp, hcompP, hlen, extra, hgeq, hextra⟩ :=
    parallelScan_spec (pipelineComponents t e) (pipelineComponents t e) [] g hg
  rw [hcomp]
  refine ⟨by omega, comp, hcompP, by rw [hgeq]; rfl, ?_⟩
  intro c hc hcg hcne
  have hce : c.id ∈ extra := by
    rw [hgeq] at hcg
    rcases List.mem_cons.mp hcg with heq | hx
    · exact absurd heq hcne
    · exact hx
  obtain ⟨other, hother, hoid, hf1, hf2⟩ := hextra _ hce
  have hoc : other = c :=
    id_inj_of_nodup (pipeline_ids_nodup t e) hother hc hoid
  subst hoc
  constructor
  · intro hmem
    have := hf2
    simp [hmem] at this
  · intro hmem
    have := hf1
    simp [hmem] at this

/-! ## C2: dependency lists never contain duplicates -/

/-- C2 counterexample: the claim that some input produces a duplicated
dependency edge is false — on every run, every component's dependency list
is duplicate-free, because the `if`/`elif` chain fires at most one append per
ordered component pair and the unconditional constraint rule only appends
ids of constraint components, which the co-mention rules never append. -/
theorem C2_counterexample :
    ¬ ∃ (α : Type) (ctx : Option α) (t : String) (e : Option (List String))
        (r : DecompositionResult) (c : Component),
      decompose t ctx e = some r ∧ c ∈ r.components ∧
        ¬ c.dependencies.Nodup := by
  rintro ⟨α, ctx, t, e, r, c, h, hc, hnd⟩
  rw [(decompose_inv h).1] at hc
  exact hnd (pipeline_deps_nodup c hc)

/-- C2 amended: for every input, no component's dependencies list contains
any id more than once (each ordered pair fires at most one rule, and the
co-mention rules and the global constraint rule append disjoint id sets). -/
theorem C2_no_duplicate_dependencies :
    ∀ {α : Type} (t : String) (ctx : Option α) (e : Option (List String))
      (r : DecompositionResult), decompose t ctx e = some r →
      ∀ c ∈ r.components, c.dependencies.Nodup := by
  intro α t ctx e r h c hc
  rw [(decompose_inv h).1] at hc
  exact pipeline_deps_nodup c hc

/-! ## C5: the unconditional constraint rule -/

/-- C5: after dependency inference, every non-constraint component's
dependency list contains the id of every constraint component (regardless of
co-mention), and constraint components themselves have no dependencies at
all. -/
theorem C5_constraint_edges :
    ∀ {α : Type} (t : String) (ctx : Option α) (e : Option (List String))
      (r : DecompositionResult), decompose t ctx e = some r →
      (∀ c ∈ r.components, c.type ≠ CompType.constraint →
        ∀ c' ∈ r.components, c'.type = CompType.constraint →
          c'.id ∈ c.dependencies) ∧
      (∀ c ∈ r.components, c.type = CompType.constraint →
        c.dependencies = []) := by
  intro α t ctx e r h
  have hcomp := (decompose_inv h).1
  constructor
  · intro c hc hct c' hc' hct'
    rw [hcomp] at hc hc'
    obtain ⟨b, hb, _, htype, _, _, hdeps, _, _⟩ := pipeline_elem hc
    obtain ⟨b', hb', hid', htype', _, _, _, _, _⟩ := pipeline_elem hc'
    rw [hdeps, hid']
    exact constraint_mem_depsFor (fun hh => hct (htype.trans hh)) hb'
      (htype'.symm.trans hct')
  · intro c hc hct
    rw [hcomp] at hc
    obtain ⟨b, hb, _, htype, _, _, hdeps, _, _⟩ := pipeline_elem hc
    rw [hdeps]
    exact depsFor_constraint (htype.symm.trans hct)

/-! ## C6: score bounds -/

/-- C6: every component of every result has its final coupling score and
criticality score in the closed interval `[0, 1]`. -/
theorem C6_scores_in_unit_interval :
    ∀ {α : Type} (t : String) (ctx : Option α) (e : Option (List String))
      (r : DecompositionResult), decompose t ctx e = some r →
      ∀ c ∈ r.components,
        0 ≤ c.coupling.score ∧ c.coupling.score ≤ 1 ∧
        0 ≤ c.criticality.score ∧ c.criticality.score ≤ 1 := by
  intro α t ctx e r h c hc
  rw [(decompose_inv h).1] at hc
  obtain ⟨b, _, _, _, _, _, _, ⟨T, b₁, hcoup⟩, hcrit⟩ := pipeline_elem hc
  refine ⟨?_, ?_, ?_, ?_⟩
  · rw [hcoup]
    exact (couplingScore_bounds T b₁).1
  · rw [hcoup]
    exact (couplingScore_bounds T b₁).2
  · rcases hcrit with h95 | ⟨m, hm⟩
    · rw [h95]; norm_num
    · rw [hm]; exact (critScore_bounds m).1
  · rcases hcrit with h95 | ⟨m, hm⟩
    · rw [h95]; norm_num
    · rw [hm]; exact (critScore_bounds m).2

/-! ## C10: the `human` noise type is unreachable -/

/-- C10: the noise descriptor never has type `human`: every built component's
confidence is 0.7, 0.6 or 0.8, all at least 0.5, so the low-confidence filter
is empty and the `> 30%` condition cannot hold. -/
theorem C10_no_human_noise :
    ∀ {α : Type} (t : String) (ctx : Option α) (e : Option (List String))
      (r : DecompositionResult), decompose t ctx e = some r →
      ∀ n, r.noise_detected = some n → n.type ≠ "human" := by
  intro α t ctx e r h n hn
  rw [(decompose_inv h).2.2.2.2] at hn
  unfold detectNoise at hn
  split_ifs at hn with h1 h2 h3
  · injection hn with hn
    rw [← hn]
    decide
  · injection hn with hn
    rw [← hn]
    decide
  · exfalso
    have hfilter : (pipelineComponents t e).filter
        (fun c => decide (c.confidence < 0.5)) = [] := by
      rw [List.filter_eq_nil]
      intro c hc
      obtain ⟨b, hb, _, _, _, hconf, _, _, _⟩ := pipeline_elem hc
      rcases (mem_buildComponents hb).2 with ⟨_, hv⟩ | ⟨_, hv⟩ | ⟨_, hv⟩ <;>
        · simp only [decide_eq_true_eq, hconf, hv]
          norm_num
    rw [hfilter] at h3
    simp only [List.length_nil, Nat.cast_zero] at h3
    have hge : (0 : ℚ) ≤ ((pipelineComponents t e).length : ℚ) * 0.3 := by
      positivity
    linarith

/-! ## C3: acyclicity and termination of the recursive computations -/

/-- C3: the dependency graph produced by dependency inference is acyclic (the
edge relation admits no cycle: every edge strictly decreases the component
rank), so the fuelled max-depth computation always succeeds and the fuelled
critical-path walk succeeds on every non-empty component collection — the
recursions of `_calculate_max_depth` and `_find_critical_path` terminate on
every decompose run. -/
theorem C3_acyclic_and_terminating :
    ∀ (t : String) (e : Option (List String)),
      (∀ i, ¬ Relation.TransGen (stepRel (pipelineComponents t e)) i i) ∧
      (calculateMaxDepth (pipelineComponents t e)).isSome = true ∧
      (pipelineComponents t e ≠ [] →
        (findCriticalPath (pipelineComponents t e)).isSome = true) := by
  intro t e
  refine ⟨?_, calculateMaxDepth_isSome t e, ?_⟩
  · intro i hcyc
    have hdec : ∀ a b, Relation.TransGen (stepRel (pipelineComponents t e)) a b →
        rankOf (pipelineComponents t e) b < rankOf (pipelineComponents t e) a := by
      intro a b htg
      induction htg with
      | single h => exact stepRel_rank _ _ h
      | tail _ h ih => exact lt_trans (stepRel_rank _ _ h) ih
    exact lt_irrefl _ (hdec i i hcyc)
  · intro hne
    obtain ⟨root, path, _, hfc, _⟩ :=
      findCriticalPath_spec _ pipeline_no_dangling_ids hne
    rw [hfc]
    rfl

/-- C3 witness at a concrete input. -/
theorem C3_witness :
    pipelineComponents
      "The build server uses queue. The test function uses storage." none ≠ [] ∧
    (¬ Relation.TransGen (stepRel (pipelineComponents
      "The build server uses queue. The test function uses storage." none))
      "comp_0" "comp_0") ∧
    (calculateMaxDepth (pipelineComponents
      "The build server uses queue. The test function uses storage." none)).isSome
      = true ∧
    (findCriticalPath (pipelineComponents
      "The build server uses queue. The test function uses storage." none)).isSome
      = true := by
  have hne : pipelineComponents
      "The build server uses queue. The test function uses storage." none ≠ [] :=
    ne_nil_of_isEmpty_false (by decide)
  have h := C3_acyclic_and_terminating
    "The build server uses queue. The test function uses storage." none
  exact ⟨hne, h.1 "comp_0", h.2.1, h.2.2 hne⟩

/-! ## C4: the critical path characterised -/

/-- C4: for every input whose run returns a result, the critical path starts
at the component with maximum criticality score (first in component order on
ties), contains each id at most once, and contains exactly the ids reachable
from that root through dependency edges — components unreachable from the
root are excluded. -/
theorem C4_critical_path_reachability :
    ∀ {α : Type} (t : String) (ctx : Option α) (e : Option (List String))
      (r : DecompositionResult), decompose t ctx e = some r →
      ∃ root, pyMaxCriticality r.components = some root ∧ root ∈ r.components ∧
        (∀ y ∈ r.components, y.criticality.score ≤ root.criticality.score) ∧
        (∃ i, r.components[i]? = some root ∧ ∀ z ∈ r.components.take i,
          z.criticality.score < root.criticality.score) ∧
        r.critical_path.head? = some root.id ∧
        r.critical_path.Nodup ∧
        (∀ x, x ∈ r.critical_path ↔
          Relation.ReflTransGen (stepRel r.components) root.id x) := by
  intro α t ctx e r h
  obtain ⟨hcomp, hfcp, _, _, _⟩ := decompose_inv h
  have hne : pipelineComponents t e ≠ [] := by
    intro hnil
    rw [hnil] at hfcp
    simp [findCriticalPath, pyMaxCriticality] at hfcp
  obtain ⟨root, path, hroot, hfc2, hhead, hnd, _, hsound, hcompl⟩ :=
    findCriticalPath_spec _ pipeline_no_dangling_ids hne
  have hpatheq : path = r.critical_path := by
    rw [hfc2] at hfcp
    exact Option.some.inj hfcp
  rw [hcomp]
  obtain ⟨hrmem, hrle, hridx⟩ := pyMaxCriticality_spec hroot
  refine ⟨root, hroot, hrmem, hrle, hridx, by rw [← hpatheq]; exact hhead,
    by rw [← hpatheq]; exact hnd, ?_⟩
  intro x
  constructor
  · intro hx
    exact hsound x (by rw [hpatheq]; exact hx)
  · intro hr
    rw [← hpatheq]
    exact hcompl (pipeline_ids_nodup t e) x hr

/-- C4 witness at a concrete input. -/
theorem C4_witness :
    ∃ r, decompose "The build server uses queue. The test function uses storage."
      (none : Option Unit) none = some r ∧
      ∃ root, pyMaxCriticality r.components = some root ∧ root ∈ r.components ∧
        (∀ y ∈ r.components, y.criticality.score ≤ root.criticality.score) ∧
        (∃ i, r.components[i]? = some root ∧ ∀ z ∈ r.components.take i,
          z.criticality.score < root.criticality.score) ∧
        r.critical_path.head? = some root.id ∧
        r.critical_path.Nodup ∧
        (∀ x, x ∈ r.critical_path ↔
          Relation.ReflTransGen (stepRel r.components) root.id x) := by
  obtain ⟨r, hr⟩ := decompose_total
    "The build server uses queue. The test function uses storage."
    (none : Option Unit) none (ne_nil_of_isEmpty_false (by decide))
  exact ⟨r, hr, C4_critical_path_reachability _ _ _ r hr⟩

/-! ## C7: no dangling ids -/

/-- C7: every id in any component's dependencies, in the critical path, and
in any parallelizable group is the id of a component present in the result's
component collection. -/
theorem C7_no_dangling_ids :
    ∀ {α : Type} (t : String) (ctx : Option α) (e : Option (List String))
      (r : DecompositionResult), decompose t ctx e = some r →
      (∀ c ∈ r.components, ∀ d ∈ c.dependencies,
        ∃ c' ∈ r.components, c'.id = d) ∧
      (∀ i ∈ r.critical_path, ∃ c' ∈ r.components, c'.id = i) ∧
      (∀ g ∈ r.parallelizable, ∀ i ∈ g, ∃ c' ∈ r.components, c'.id = i) := by
  intro α t ctx e r h
  obtain ⟨hcomp, hfcp, _, hpar, _⟩ := decompose_inv h
  have hne : pipelineComponents t e ≠ [] := by
    intro hnil
    rw [hnil] at hfcp
    simp [findCriticalPath, pyMaxCriticality] at hfcp
  refine ⟨?_, ?_, ?_⟩
  · intro c hc d hd
    rw [hcomp] at hc ⊢
    exact pipeline_no_dangling c hc d hd
  · intro i hi
    obtain ⟨root, path, hroot, hfc2, _, _, hmemids, _, _⟩ :=
      findCriticalPath_spec _ pipeline_no_dangling_ids hne
    have hpatheq : path = r.critical_path := by
      rw [hfc2] at hfcp
      exact Option.some.inj hfcp
    rw [hcomp]
    have := hmemids i (by rw [hpatheq]; exact hi)
    obtain ⟨c', hc', hid⟩ := List.mem_map.mp this
    exact ⟨c', hc', hid⟩
  · intro g hg i hi
    rw [hpar] at hg
    unfold findParallelizable at hg
    obtain ⟨comp, hcompP, _, extra, hgeq, hextra⟩ :=
      parallelScan_spec _ _ _ g hg
    rw [hcomp]
    rw [hgeq] at hi
    rcases List.mem_cons.mp hi with rfl | hi'
    · exact ⟨comp, hcompP, rfl⟩
    · obtain ⟨other, hother, hoid, _, _⟩ := hextra i hi'
      exact ⟨other, hother, hoid⟩

/-- C7 witness at a concrete input. -/
theorem C7_witness :
    ∃ r, decompose "The build server uses queue. The test function uses storage."
      (none : Option Unit) none = some r ∧
      (∀ c ∈ r.components, ∀ d ∈ c.dependencies,
        ∃ c' ∈ r.components, c'.id = d) ∧
      (∀ i ∈ r.critical_path, ∃ c' ∈ r.components, c'.id = i) ∧
      (∀ g ∈ r.parallelizable, ∀ i ∈ g, ∃ c' ∈ r.components, c'.id = i) := by
  obtain ⟨r, hr⟩ := decompose_total
    "The build server uses queue. The test function uses storage."
    (none : Option Unit) none (ne_nil_of_isEmpty_false (by decide))
  exact ⟨r, hr, C7_no_dangling_ids _ _ _ r hr⟩

/-! ## Remaining counterexample and witnesses -/

/-- C1 counterexample: on this input the greedy grouping puts `comp_1`
(`test function`) and `comp_3` (`storage`) into the same retained group even
though `comp_1` directly depends on `comp_3`: the inner scan only checks
edges against the group's seed `comp_0` (`build server`), never between two
non-seed members, so the claimed pairwise independence fails. -/
theorem C1_counterexample :
    ∃ r, decompose "The build server uses queue. The test function uses storage."
      (none : Option Unit) none = some r ∧
      ∃ g ∈ r.parallelizable, ∃ c₁ ∈ r.components, ∃ c₂ ∈ r.components,
        c₁.id ∈ g ∧ c₂.id ∈ g ∧ c₂.id ∈ c₁.dependencies := by
  obtain ⟨r, hr⟩ := decompose_total
    "The build server uses queue. The test function uses storage."
    (none : Option Unit) none (ne_nil_of_isEmpty_false (by decide))
  refine ⟨r, hr, ?_⟩
  rw [(decompose_inv hr).2.2.2.1, (decompose_inv hr).1]
  decide

/-- C1 witness for the amended statement at a concrete input. -/
theorem C1_witness :
    ∃ r g, decompose "The build server uses queue. The test function uses storage."
      (none : Option Unit) none = some r ∧ g ∈ r.parallelizable ∧
      2 ≤ g.length ∧
      ∃ seed ∈ r.components, g.head? = some seed.id ∧
        ∀ c ∈ r.components, c.id ∈ g → c.id ≠ seed.id →
          seed.id ∉ c.dependencies ∧ c.id ∉ seed.dependencies := by
  obtain ⟨r, hr⟩ := decompose_total
    "The build server uses queue. The test function uses storage."
    (none : Option Unit) none (ne_nil_of_isEmpty_false (by decide))
  have hg : ["comp_0", "comp_1", "comp_3"] ∈ r.parallelizable := by
    rw [(decompose_inv hr).2.2.2.1]
    decide
  obtain ⟨hlen, hrest⟩ := C1_groups_independent_of_seed _ _ _ r hr _ hg
  exact ⟨r, _, hr, hg, hlen, hrest⟩

/-- C2 witness at a concrete input. -/
theorem C2_witness :
    ∃ r, decompose "The build server uses queue. The test function uses storage."
      (none : Option Unit) none = some r ∧
      ∀ c ∈ r.components, c.dependencies.Nodup := by
  obtain ⟨r, hr⟩ := decompose_total
    "The build server uses queue. The test function uses storage."
    (none : Option Unit) none (ne_nil_of_isEmpty_false (by decide))
  exact ⟨r, hr, C2_no_duplicate_dependencies _ _ _ r hr⟩

/-- C5 witness at a concrete input with an explicit constraint. -/
theorem C5_witness :
    ∃ r, decompose "Build the server now" (none : Option Unit)
      (some ["zero budget"]) = some r ∧
      (∀ c ∈ r.components, c.type ≠ CompType.constraint →
        ∀ c' ∈ r.components, c'.type = CompType.constraint →
          c'.id ∈ c.dependencies) ∧
      (∀ c ∈ r.components, c.type = CompType.constraint →
        c.dependencies = []) := by
  obtain ⟨r, hr⟩ := decompose_total "Build the server now" (none : Option Unit)
    (some ["zero budget"]) (ne_nil_of_isEmpty_false (by decide))
  exact ⟨r, hr, C5_constraint_edges _ _ _ r hr⟩

/-- C6 witness at a concrete input. -/
theorem C6_witness :
    ∃ r, decompose "Build the server now" (none : Option Unit)
      (some ["zero budget"]) = some r ∧
      ∀ c ∈ r.components,
        0 ≤ c.coupling.score ∧ c.coupling.score ≤ 1 ∧
        0 ≤ c.criticality.score ∧ c.criticality.score ≤ 1 := by
  obtain ⟨r, hr⟩ := decompose_total "Build the server now" (none : Option Unit)
    (some ["zero budget"]) (ne_nil_of_isEmpty_false (by decide))
  exact ⟨r, hr, C6_scores_in_unit_interval _ _ _ r hr⟩

/-- C10 witness at a concrete input whose noise descriptor is present
(`epistemic`, since the input is shorter than 50 characters). -/
theorem C10_witness :
    ∃ r n, decompose "Do something" (none : Option Unit) none = some r ∧
      r.noise_detected = some n ∧ n.type ≠ "human" := by
  obtain ⟨r, hr⟩ := decompose_total "Do something" (none : Option Unit) none
    (ne_nil_of_isEmpty_false (by decide))
  have hn : r.noise_detected = some
      ⟨"epistemic", "Problem description lacks detail and context"⟩ := by
    rw [(decompose_inv hr).2.2.2.2]
    decide
  exact ⟨r, _, hr, hn, C10_no_human_noise _ _ _ r hr _ hn⟩

end Hummbl
